import Mathlib

/-
Verification of the query rewrite engine in `src/directive-utils.ts` of
`urql-computed-exchange`.

The embedding models the GraphQL AST fragments the rewrite touches.  A
selection list is a list of `SelEntry`: the host visitor, when a visitor
callback returns an array for a single node, stores that array as a single
array-valued element of the parent list (it does not splice it), so between
the first and the second pass a selection list may contain arrays of
selections; `SelEntry.many` models such an array-valued element.

Machine details deliberately not modelled: source locations, field argument
lists on `Field` nodes (the rewrite never reads them), and the `kind` string
tags (represented by the constructors themselves).  Field alias and name
nodes are represented by their string payloads.  JavaScript objects keyed by
GraphQL names preserve insertion order (GraphQL names never look like array
indices), which the association-list representation mirrors.
-/

set_option linter.unusedVariables false
set_option linter.unnecessarySeqFocus false

namespace UrqlComputed

/-- An argument of a directive; `value` models `argumentNode.value.value`,
the string payload of the value node (`none` when the value node carries no
such payload, which the source reaches through optional chaining). -/
structure DirectiveArg where
  value : Option String

/-- A directive node: a name and an optional argument list
(`DirectiveNode.arguments` is optional in the host AST). -/
structure Directive where
  name : String
  arguments : Option (List DirectiveArg)

mutual
/-- Selection nodes: `Field`, `FragmentSpread` and `InlineFragment`. -/
inductive SelNode : Type where
  | field (fieldAlias : Option String) (name : String)
      (directives : List Directive) (selectionSet : Option (List SelEntry))
  | fragmentSpread (name : String) (directives : List Directive)
  | inlineFragment (typeCondition : Option String)
      (directives : List Directive) (selections : List SelEntry)
/-- An element of a selection list: either a single selection node or an
array of entries left behind by a one-to-many substitution of the first
pass (`lodash.flatten` in the second pass collapses one such level). -/
inductive SelEntry : Type where
  | one (s : SelNode)
  | many (es : List SelEntry)
end

/-- An `OperationDefinition` or `FragmentDefinition` node (the definition
kinds that carry a selection set). -/
inductive Definition : Type where
  | operation (directives : List Directive) (selections : List SelEntry)
  | fragmentDef (name : String) (typeCondition : String)
      (directives : List Directive) (selections : List SelEntry)

/-- A `DefinitionNode | DocumentNode` value, the argument type of both
entry points. -/
inductive QueryNode : Type where
  | definition (d : Definition)
  | document (definitions : List Definition)

/-- A field descriptor of the entity registry: `dependencies` is an optional
document, kept as its `definitions` list (the source only ever reads
`entityField.dependencies?.definitions[0]`). -/
structure EntityField where
  dependencies : Option (List Definition)

/-- An entity type descriptor: a field-name-to-descriptor map. -/
structure EntityType where
  fields : List (String × EntityField)

/-- The entity registry (`Entities` in `types.ts`): a map from entity type
name to descriptor, as an insertion-ordered association list. -/
abbrev Entities := List (String × EntityType)

/-- Lookup in a string-keyed JavaScript object, first matching key. -/
def slookup {α : Type} : List (String × α) → String → Option α
  | [], _ => none
  | kv :: rest, key => if kv.1 == key then some kv.2 else slookup rest key

/-- Classification of the AST node kinds that matter to
`nodeHasComputedDirectives`: some kinds expose a `directives` list, the
others do not have such a property at all. -/
inductive ASTNode : Type where
  | selection (s : SelNode)
  | definitionNode (d : Definition)
  | documentNode (definitions : List Definition)
  | selectionSetNode (selections : List SelEntry)
  | nameNode (value : String)
  | directiveNode (d : Directive)

/-- Value of the `directives` property of a node: `none` models a node kind
without that property (so `node.directives` is `undefined`). -/
def directivesOf : ASTNode → Option (List Directive)
  | .selection (.field _ _ ds _) => some ds
  | .selection (.fragmentSpread _ ds) => some ds
  | .selection (.inlineFragment _ ds _) => some ds
  | .definitionNode (.operation ds _) => some ds
  | .definitionNode (.fragmentDef _ _ ds _) => some ds
  | .documentNode _ => none
  | .selectionSetNode _ => none
  | .nameNode _ => none
  | .directiveNode _ => none

/-- Model of `_isNodeWithDirectives`: `node != null && node.directives != null`. -/
def isNodeWithDirectives (node : Option ASTNode) : Bool :=
  match node with
  | none => false
  | some n => (directivesOf n).isSome

/-- Model of `nodeHasComputedDirectives`: guard with `_isNodeWithDirectives`,
then `node.directives != null && node.directives.some(d => d.name.value === 'computed')`. -/
def nodeHasComputedDirectives (node : Option ASTNode) : Bool :=
  if !(isNodeWithDirectives node) then false
  else
    match node.bind directivesOf with
    | none => false
    | some ds => ds.any (fun d => d.name == "computed")

/-- Failure conditions of the rewrite.  The source throws plain `Error`
values with messages; `noTypeSpecified` is the message
`Invalid @computed directive found. No type specified`, `unknownEntityType`
is `No entity found for type "..."`, `unknownComputedField` is
`No resolver found for @computed directive "..." in type "..."`.
`typeError` is the host-language `TypeError` raised when
`fragment.selectionSet.selections` dereferences a `null` resolver result
(the spec calls this condition `MissingDependency`).  `outOfFuel` is a
modelling artifact only: it bounds the recursion that, on a cyclic
registry, the source would not terminate on. -/
inductive RewriteError : Type where
  | noTypeSpecified
  | unknownEntityType (typeName : String)
  | unknownComputedField (fieldName : String) (typeName : String)
  | typeError
  | outOfFuel
deriving DecidableEq

/-- Model of `getDirectiveType`: reads
`directiveNode?.arguments?.[0]?.value?.value` through optional chaining and
throws when the result is `null`. -/
def getDirectiveType (directiveNode : Option Directive) : Except RewriteError String :=
  match (((directiveNode.bind (fun d => d.arguments)).bind List.head?).bind
      (fun a => a.value)) with
  | none => .error .noTypeSpecified
  | some typeName => .ok typeName

/-- Model of the `Directive` visitor of the second replace-mode pass: a
directive named `computed` is deleted from the directive list of its owning
node, every other directive passes through. -/
def stripComputed (ds : List Directive) : List Directive :=
  ds.filter (fun d => !(d.name == "computed"))

/-- Model of `lodash.flatten` on a selection list: collapses exactly one
level of array nesting, preserving order. -/
def flattenEntries : List SelEntry → List SelEntry
  | [] => []
  | .one s :: rest => .one s :: flattenEntries rest
  | .many es :: rest => es ++ flattenEntries rest

/-- Payload of a `Field` selection node, as the merge step of the second
pass manipulates it. -/
structure FieldData where
  fieldAlias : Option String
  name : String
  directives : List Directive
  selectionSet : Option (List SelEntry)

/-- Field test used by `selection.kind === 'Field'`: an array-valued entry
has no `kind` property and compares unequal. -/
def toFieldData : SelEntry → Option FieldData
  | .one (.field a n ds ss) => some ⟨a, n, ds, ss⟩
  | _ => none

/-- Boolean form of the `kind === 'Field'` test. -/
def isFieldEntry (e : SelEntry) : Bool :=
  (toFieldData e).isSome

/-- Effective response key: `field.alias?.value || field.name.value`
(GraphQL names are nonempty, so the JavaScript falsiness of the empty
string never fires on parsed input). -/
def fieldKey (f : FieldData) : String :=
  f.fieldAlias.getD f.name

/-- Model of one `mergeWith(acc, field, customizer)` step: the customizer
concatenates array-valued properties (`directives`, and
`selectionSet.selections` inside the recursive object merge), the default
deep merge lets properties of `field` overwrite those of `acc`, except
that `lodash.merge` skips source properties that are `undefined` (hence
an absent alias or selection set of `field` keeps the accumulated one). -/
def mergeTwoFields (acc f : FieldData) : FieldData :=
  ⟨(match f.fieldAlias with
    | some a => some a
    | none => acc.fieldAlias),
   f.name,
   acc.directives ++ f.directives,
   (match acc.selectionSet, f.selectionSet with
    | none, s => s
    | some a, none => some a
    | some a, some b => some (a ++ b))⟩

/-- Model of `fields.reduce((acc, field) => mergeWith(acc, field, ...), {})`
over one response-key group.  Merging the first field into the empty object
produces a structurally equal copy of it, so the fold starts from the first
field; the `[]` case models the empty accumulator and is unreachable
(groups are built nonempty). -/
def mergeGroup : List FieldData → FieldData
  | [] => ⟨none, "", [], none⟩
  | h :: t => t.foldl mergeTwoFields h

/-- Model of one step of the grouping reduce
`acc[name] = [...(acc[name] || []), field]` on an insertion-ordered object:
append to an existing group, or append a new singleton group at the end. -/
def insertGroup (acc : List (String × List FieldData)) (f : FieldData) :
    List (String × List FieldData) :=
  match slookup acc (fieldKey f) with
  | some _ => acc.map (fun kg => if kg.1 == fieldKey f then (kg.1, kg.2 ++ [f]) else kg)
  | none => acc ++ [(fieldKey f, [f])]

/-- Model of the grouping reduce of the second replace-mode pass, with
`Object.values` later reading the groups in insertion order. -/
def groupFields (fs : List FieldData) : List (String × List FieldData) :=
  fs.foldl insertGroup []

/-- Deduplication keeping the first occurrence of every key, in order; used
only to state properties of `groupFields`. -/
def dedupFirst : List String → List String
  | [] => []
  | k :: rest => k :: dedupFirst (rest.filter (fun x => !(x == k)))
termination_by l => l.length
decreasing_by
  simp only [List.length_cons]
  exact Nat.lt_succ_of_le (List.length_filter_le _ _)

mutual
/-- Nesting depth of a selection node; the measure justifying termination
of the second-pass traversals. -/
def depthSel : SelNode → Nat
  | .field _ _ _ none => 0
  | .field _ _ _ (some l) => depthEntries l + 1
  | .fragmentSpread _ _ => 0
  | .inlineFragment _ _ l => depthEntries l + 1
/-- Nesting depth of a selection-list entry; an array level counts one. -/
def depthEntry : SelEntry → Nat
  | .one s => depthSel s
  | .many es => depthEntries es + 1
/-- Nesting depth of a selection list: maximum over its entries. -/
def depthEntries : List SelEntry → Nat
  | [] => 0
  | e :: rest => max (depthEntry e) (depthEntries rest)
end

/-- Nesting depth of a field payload, matching `depthSel` of the field. -/
def depthField (f : FieldData) : Nat :=
  match f.selectionSet with
  | none => 0
  | some l => depthEntries l + 1

def depthEntry_le_of_mem : ∀ {e : SelEntry} {l : List SelEntry},
    e ∈ l → depthEntry e ≤ depthEntries l := by
  intro e l h
  induction l with
  | nil => cases h
  | cons x rest ih =>
    rcases List.mem_cons.mp h with rfl | h
    · simp [depthEntries]
    · exact le_trans (ih h) (by simp [depthEntries])

def depthEntries_le : ∀ {l : List SelEntry} {D : Nat},
    (∀ e ∈ l, depthEntry e ≤ D) → depthEntries l ≤ D := by
  intro l D h
  induction l with
  | nil => simp [depthEntries]
  | cons x rest ih =>
    rw [depthEntries]
    exact max_le (h x (by simp)) (ih fun e he => h e (by simp [he]))

def depthEntries_append : ∀ (a b : List SelEntry),
    depthEntries (a ++ b) = max (depthEntries a) (depthEntries b) := by
  intro a b
  induction a with
  | nil => simp [depthEntries]
  | cons e rest ih => simp [depthEntries, ih, max_assoc]

def depthEntry_le_of_mem_flatten : ∀ {e : SelEntry} {l : List SelEntry},
    e ∈ flattenEntries l → depthEntry e ≤ depthEntries l := by
  intro e l h
  induction l with
  | nil => rw [flattenEntries] at h; cases h
  | cons x rest ih =>
    cases x with
    | one s =>
      rw [flattenEntries] at h
      rcases List.mem_cons.mp h with rfl | h
      · simp [depthEntries]
      · exact le_trans (ih h) (by simp [depthEntries])
    | many es =>
      rw [flattenEntries] at h
      rcases List.mem_append.mp h with h | h
      · refine le_trans (depthEntry_le_of_mem h) ?_
        simp only [depthEntries, depthEntry]
        omega
      · exact le_trans (ih h) (by simp [depthEntries])

def depthEntries_filter_flatten_le : ∀ (p : SelEntry → Bool) (l : List SelEntry),
    depthEntries ((flattenEntries l).filter p) ≤ depthEntries l := by
  intro p l
  exact depthEntries_le fun e he =>
    depthEntry_le_of_mem_flatten (List.mem_of_mem_filter he)

def depthEntries_flatten_le : ∀ (l : List SelEntry),
    depthEntries (flattenEntries l) ≤ depthEntries l := by
  intro l
  exact depthEntries_le fun e he => depthEntry_le_of_mem_flatten he

def depthField_le_of_toFieldData : ∀ {e : SelEntry} {fd : FieldData},
    toFieldData e = some fd → depthField fd ≤ depthEntry e := by
  intro e fd h
  cases e with
  | one s =>
    cases s with
    | field a n ds ss =>
      rw [toFieldData] at h
      cases h
      cases ss <;> simp [depthField, depthEntry, depthSel]
    | fragmentSpread n ds => simp [toFieldData] at h
    | inlineFragment tc ds l => simp [toFieldData] at h
  | many es => simp [toFieldData] at h

def depthField_mergeTwo_le : ∀ (a b : FieldData),
    depthField (mergeTwoFields a b) ≤ max (depthField a) (depthField b) := by
  intro a b
  cases ha : a.selectionSet <;> cases hb : b.selectionSet <;>
    simp [mergeTwoFields, depthField, ha, hb, depthEntries_append] <;> omega

def depthField_foldl_le : ∀ (t : List FieldData) (h : FieldData) {D : Nat},
    depthField h ≤ D → (∀ f ∈ t, depthField f ≤ D) →
    depthField (t.foldl mergeTwoFields h) ≤ D := by
  intro t
  induction t with
  | nil => intro h D hh _; exact hh
  | cons x xs ih =>
    intro h D hh ht
    rw [List.foldl_cons]
    refine ih _ ?_ fun f hf => ht f (by simp [hf])
    exact le_trans (depthField_mergeTwo_le h x) (max_le hh (ht x (by simp)))

def depthField_mergeGroup_le : ∀ {g : List FieldData} {D : Nat},
    (∀ f ∈ g, depthField f ≤ D) → depthField (mergeGroup g) ≤ D := by
  intro g D h
  cases g with
  | nil => simp [mergeGroup, depthField]
  | cons x xs =>
    rw [mergeGroup]
    exact depthField_foldl_le xs x (h x (by simp)) fun f hf => h f (by simp [hf])

def mem_insertGroup : ∀ {acc : List (String × List FieldData)} {f : FieldData}
    {kg : String × List FieldData}, kg ∈ insertGroup acc f →
    ∀ {x : FieldData}, x ∈ kg.2 → (∃ kg0 ∈ acc, x ∈ kg0.2) ∨ x = f := by
  intro acc f kg hkg x hx
  rw [insertGroup] at hkg
  cases hsl : slookup acc (fieldKey f) <;> rw [hsl] at hkg
  · rcases List.mem_append.mp hkg with h | h
    · exact Or.inl ⟨kg, h, hx⟩
    · simp only [List.mem_singleton] at h
      subst h
      simp only [List.mem_singleton] at hx
      exact Or.inr hx
  · rcases List.mem_map.mp hkg with ⟨kg0, h0, rfl⟩
    by_cases hc : kg0.1 == fieldKey f
    · rw [if_pos hc] at hx
      rcases List.mem_append.mp hx with h | h
      · exact Or.inl ⟨kg0, h0, h⟩
      · simp only [List.mem_singleton] at h
        exact Or.inr h
    · rw [if_neg hc] at hx
      exact Or.inl ⟨kg0, h0, hx⟩

def mem_foldl_insertGroup : ∀ (P : FieldData → Prop) (fs : List FieldData)
    (acc : List (String × List FieldData)),
    (∀ kg ∈ acc, ∀ x ∈ kg.2, P x) → (∀ f ∈ fs, P f) →
    ∀ kg ∈ fs.foldl insertGroup acc, ∀ x ∈ kg.2, P x := by
  intro P fs
  induction fs with
  | nil => intro acc hacc _ kg hkg x hx; exact hacc kg hkg x hx
  | cons g gs ih =>
    intro acc hacc hfs kg hkg x hx
    rw [List.foldl_cons] at hkg
    refine ih (insertGroup acc g) ?_ (fun f2 h2 => hfs f2 (by simp [h2])) kg hkg x hx
    intro kg2 hkg2 y hy
    rcases mem_insertGroup hkg2 hy with ⟨kg0, h0, hy0⟩ | heq
    · exact hacc kg0 h0 y hy0
    · rw [heq]; exact hfs g (by simp)

def mem_groupFields : ∀ {fs : List FieldData} {kg : String × List FieldData},
    kg ∈ groupFields fs → ∀ {x : FieldData}, x ∈ kg.2 → x ∈ fs := by
  intro fs kg hkg x hx
  exact mem_foldl_insertGroup (· ∈ fs) fs [] (by simp) (fun _ h => h) kg hkg x hx

def depthField_mergeGroup_flatten_le : ∀ {l : List SelEntry}
    {kg : String × List FieldData},
    kg ∈ groupFields ((flattenEntries l).filterMap toFieldData) →
    depthField (mergeGroup kg.2) ≤ depthEntries l := by
  intro l kg hkg
  refine depthField_mergeGroup_le fun f hf => ?_
  have hmem : f ∈ (flattenEntries l).filterMap toFieldData :=
    mem_groupFields hkg hf
  rcases List.mem_filterMap.mp hmem with ⟨e, he, hfe⟩
  exact le_trans (depthField_le_of_toFieldData hfe) (depthEntry_le_of_mem_flatten he)

mutual
/-- Model of the second replace-mode pass on one selection list
(the `SelectionSet` visitor): flatten one array level, partition into
non-`Field` entries (kept first, in order) and `Field` nodes (grouped by
response key and merged, appended in first-seen-key order), then descend
into the rebuilt children as the host visitor does. -/
def normalizeEntries (l : List SelEntry) : List SelEntry :=
  ((flattenEntries l).filter (fun e => !(isFieldEntry e))).attach.map
      (fun x => normalizeEntry x.1) ++
    (groupFields ((flattenEntries l).filterMap toFieldData)).attach.map
      (fun kg => .one (normalizeField (mergeGroup kg.1.2)))
termination_by 3 * depthEntries l + 2
decreasing_by
  · have h := depthEntry_le_of_mem_flatten (List.mem_of_mem_filter x.2)
    simp_wf
    omega
  · have h := depthField_mergeGroup_flatten_le kg.2
    simp_wf
    omega
/-- Descent of the second replace-mode pass into one selection-list entry;
array-valued entries are traversed elementwise by the host visitor. -/
def normalizeEntry : SelEntry → SelEntry
  | .one s => .one (normalizeSel s)
  | .many es => .many (es.attach.map (fun x => normalizeEntry x.1))
termination_by e => 3 * depthEntry e + 1
decreasing_by
  · simp_wf
    simp [depthEntry]
  · have h := depthEntry_le_of_mem x.2
    simp_wf
    simp only [depthEntry]
    omega
/-- Descent of the second replace-mode pass into one selection node:
`computed` directives are stripped by the `Directive` visitor, and nested
selection sets are rewritten by the `SelectionSet` visitor. -/
def normalizeSel : SelNode → SelNode
  | .field a n ds none => .field a n (stripComputed ds) none
  | .field a n ds (some l) => .field a n (stripComputed ds) (some (normalizeEntries l))
  | .fragmentSpread n ds => .fragmentSpread n (stripComputed ds)
  | .inlineFragment tc ds l => .inlineFragment tc (stripComputed ds) (normalizeEntries l)
termination_by s => 3 * depthSel s
decreasing_by
  · simp_wf
    simp only [depthSel]
    omega
  · simp_wf
    simp only [depthSel]
    omega
/-- Descent of the second replace-mode pass into a merged field: its
directives are stripped and its concatenated selection set rewritten. -/
def normalizeField : FieldData → SelNode
  | ⟨a, n, ds, none⟩ => .field a n (stripComputed ds) none
  | ⟨a, n, ds, some l⟩ => .field a n (stripComputed ds) (some (normalizeEntries l))
termination_by fd => 3 * depthField fd + 1
decreasing_by
  simp_wf
  simp only [depthField]
  omega
end

/-- Second replace-mode pass on a definition node: the `Directive` visitor
strips `computed` directives on the definition itself and the
`SelectionSet` visitor rewrites its selection set. -/
def normalizeDefinition : Definition → Definition
  | .operation ds sels => .operation (stripComputed ds) (normalizeEntries sels)
  | .fragmentDef n tc ds sels =>
      .fragmentDef n tc (stripComputed ds) (normalizeEntries sels)

/-- Second replace-mode pass on a `DefinitionNode | DocumentNode` value. -/
def normalizeNode : QueryNode → QueryNode
  | .definition d => .definition (normalizeDefinition d)
  | .document defs => .document (defs.map normalizeDefinition)

/-- Field payload of the node `normalizeField` produces: alias and name
kept, directives stripped, selection set rewritten. -/
def normalizeFieldData (fd : FieldData) : FieldData :=
  ⟨fd.fieldAlias, fd.name, stripComputed fd.directives,
   match fd.selectionSet with
   | none => none
   | some l => some (normalizeEntries l)⟩

mutual
/-- Model of the second augment-mode pass on one selection list: only
`node.selections = flatten(node.selections)` runs, then the host visitor
descends; nothing is merged and no directive is touched. -/
def flattenPassEntries (l : List SelEntry) : List SelEntry :=
  (flattenEntries l).attach.map (fun x => flattenPassEntry x.1)
termination_by 3 * depthEntries l + 2
decreasing_by
  have h := depthEntry_le_of_mem_flatten x.2
  simp_wf
  omega
/-- Descent of the second augment-mode pass into one entry. -/
def flattenPassEntry : SelEntry → SelEntry
  | .one s => .one (flattenPassSel s)
  | .many es => .many (es.attach.map (fun x => flattenPassEntry x.1))
termination_by e => 3 * depthEntry e + 1
decreasing_by
  · simp_wf
    simp [depthEntry]
  · have h := depthEntry_le_of_mem x.2
    simp_wf
    simp only [depthEntry]
    omega
/-- Descent of the second augment-mode pass into one selection node. -/
def flattenPassSel : SelNode → SelNode
  | .field a n ds none => .field a n ds none
  | .field a n ds (some l) => .field a n ds (some (flattenPassEntries l))
  | .fragmentSpread n ds => .fragmentSpread n ds
  | .inlineFragment tc ds l => .inlineFragment tc ds (flattenPassEntries l)
termination_by s => 3 * depthSel s
decreasing_by
  · simp_wf
    simp only [depthSel]
    omega
  · simp_wf
    simp only [depthSel]
    omega
end

/-- Second augment-mode pass on a definition node. -/
def flattenPassDefinition : Definition → Definition
  | .operation ds sels => .operation ds (flattenPassEntries sels)
  | .fragmentDef n tc ds sels => .fragmentDef n tc ds (flattenPassEntries sels)

/-- Second augment-mode pass on a `DefinitionNode | DocumentNode` value. -/
def flattenPassNode : QueryNode → QueryNode
  | .definition d => .definition (flattenPassDefinition d)
  | .document defs => .document (defs.map flattenPassDefinition)

/-- Model of the read `fragment.selectionSet.selections` performed by both
`Field` visitors on the resolver result: dereferencing a `null` result, or
the `undefined` `selectionSet` of a document node, raises a `TypeError`. -/
def fragmentSelections : Option QueryNode → Except RewriteError (List SelEntry)
  | none => .error .typeError
  | some (.document _) => .error .typeError
  | some (.definition (.operation _ sels)) => .ok sels
  | some (.definition (.fragmentDef _ _ _ sels)) => .ok sels

mutual
/-- Model of `replaceDirectivesByFragments(query, entities)`.  The `fuel`
argument is a modelling artifact bounding the registry recursion (the
source recurses unboundedly on a cyclic registry); it is consumed only
when a non-null query starts a traversal. -/
def replaceDirectivesByFragments (fuel : Nat) (query : Option QueryNode)
    (entities : Entities) : Except RewriteError (Option QueryNode) :=
  match query with
  | none => .ok none
  | some q =>
    match fuel with
    | 0 => .error .outOfFuel
    | f + 1 => do
      let firstPass ← expandNode f entities q
      return some (normalizeNode firstPass)
termination_by (fuel, 0, 0)
/-- First replace-mode pass over a `DefinitionNode | DocumentNode` value. -/
def expandNode (fuel : Nat) (ent : Entities) :
    QueryNode → Except RewriteError QueryNode
  | .definition d => do
      return .definition (← expandDefinition fuel ent d)
  | .document defs => do
      return .document (← expandDefinitions fuel ent defs)
termination_by q => (fuel, sizeOf q, 1)
/-- First replace-mode pass over a definition list. -/
def expandDefinitions (fuel : Nat) (ent : Entities) :
    List Definition → Except RewriteError (List Definition)
  | [] => .ok []
  | d :: rest => do
      return (← expandDefinition fuel ent d) :: (← expandDefinitions fuel ent rest)
termination_by ds => (fuel, sizeOf ds, 1)
/-- First replace-mode pass over one definition: the `Field` visitor only
fires inside the selection set. -/
def expandDefinition (fuel : Nat) (ent : Entities) :
    Definition → Except RewriteError Definition
  | .operation ds sels => do
      return .operation ds (← expandEntryList fuel ent sels)
  | .fragmentDef n tc ds sels => do
      return .fragmentDef n tc ds (← expandEntryList fuel ent sels)
termination_by d => (fuel, sizeOf d, 1)
/-- First replace-mode pass over a selection list. -/
def expandEntryList (fuel : Nat) (ent : Entities) :
    List SelEntry → Except RewriteError (List SelEntry)
  | [] => .ok []
  | e :: rest => do
      return (← expandEntry fuel ent e) :: (← expandEntryList fuel ent rest)
termination_by l => (fuel, sizeOf l, 1)
/-- First replace-mode pass over one entry; the host visitor iterates into
array-valued entries. -/
def expandEntry (fuel : Nat) (ent : Entities) :
    SelEntry → Except RewriteError SelEntry
  | .one s => expandSel fuel ent s
  | .many es => do
      return .many (← expandEntryList fuel ent es)
termination_by e => (fuel, sizeOf e, 1)
/-- Model of the `Field` visitor of the first replace-mode pass: a field
without `computed` directive is descended into unchanged; an annotated
field is replaced by the array of its resolved fragment selections (the
host visitor does not descend into a returned array). -/
def expandSel (fuel : Nat) (ent : Entities) :
    SelNode → Except RewriteError SelEntry
  | .field a n ds ss =>
      if nodeHasComputedDirectives (some (.selection (.field a n ds ss))) then do
        let fragment ← replaceDirectiveByFragment fuel ent n ds
        let sels ← fragmentSelections fragment
        return .many sels
      else
        match ss with
        | none => .ok (.one (.field a n ds none))
        | some l => do
            return .one (.field a n ds (some (← expandEntryList fuel ent l)))
  | .fragmentSpread n ds => .ok (.one (.fragmentSpread n ds))
  | .inlineFragment tc ds l => do
      return .one (.inlineFragment tc ds (← expandEntryList fuel ent l))
termination_by s => (fuel, sizeOf s, 1)
/-- Model of the inner `replaceDirectiveByFragment(node)` closure, taking
the two node properties it reads: `node.name.value` and `node.directives`.
The dependency fragment is `entityField.dependencies?.definitions[0]`,
recursively rewritten by `replaceDirectivesByFragments`. -/
def replaceDirectiveByFragment (fuel : Nat) (ent : Entities) (name : String)
    (directives : List Directive) : Except RewriteError (Option QueryNode) := do
  let computedDirective := directives.find? (fun d => d.name == "computed")
  let directiveType ← getDirectiveType computedDirective
  match slookup ent directiveType with
  | none => .error (.unknownEntityType directiveType)
  | some entityType =>
    match slookup entityType.fields name with
    | none => .error (.unknownComputedField name directiveType)
    | some entityField =>
      replaceDirectivesByFragments fuel
        ((entityField.dependencies.bind List.head?).map QueryNode.definition) ent
termination_by (fuel, 0, 1)
end

mutual
/-- Model of `addFragmentsFromDirectives(query, entities)`, the augment-mode
entry point, with the same fuel artifact as the replace-mode model. -/
def addFragmentsFromDirectives (fuel : Nat) (query : Option QueryNode)
    (entities : Entities) : Except RewriteError (Option QueryNode) :=
  match query with
  | none => .ok none
  | some q =>
    match fuel with
    | 0 => .error .outOfFuel
    | f + 1 => do
      let firstPass ← aexpandNode f entities q
      return some (flattenPassNode firstPass)
termination_by (fuel, 0, 0)
/-- First augment-mode pass over a `DefinitionNode | DocumentNode` value. -/
def aexpandNode (fuel : Nat) (ent : Entities) :
    QueryNode → Except RewriteError QueryNode
  | .definition d => do
      return .definition (← aexpandDefinition fuel ent d)
  | .document defs => do
      return .document (← aexpandDefinitions fuel ent defs)
termination_by q => (fuel, sizeOf q, 1)
/-- First augment-mode pass over a definition list. -/
def aexpandDefinitions (fuel : Nat) (ent : Entities) :
    List Definition → Except RewriteError (List Definition)
  | [] => .ok []
  | d :: rest => do
      return (← aexpandDefinition fuel ent d) :: (← aexpandDefinitions fuel ent rest)
termination_by ds => (fuel, sizeOf ds, 1)
/-- First augment-mode pass over one definition. -/
def aexpandDefinition (fuel : Nat) (ent : Entities) :
    Definition → Except RewriteError Definition
  | .operation ds sels => do
      return .operation ds (← aexpandEntryList fuel ent sels)
  | .fragmentDef n tc ds sels => do
      return .fragmentDef n tc ds (← aexpandEntryList fuel ent sels)
termination_by d => (fuel, sizeOf d, 1)
/-- First augment-mode pass over a selection list. -/
def aexpandEntryList (fuel : Nat) (ent : Entities) :
    List SelEntry → Except RewriteError (List SelEntry)
  | [] => .ok []
  | e :: rest => do
      return (← aexpandEntry fuel ent e) :: (← aexpandEntryList fuel ent rest)
termination_by l => (fuel, sizeOf l, 1)
/-- First augment-mode pass over one entry. -/
def aexpandEntry (fuel : Nat) (ent : Entities) :
    SelEntry → Except RewriteError SelEntry
  | .one s => aexpandSel fuel ent s
  | .many es => do
      return .many (← aexpandEntryList fuel ent es)
termination_by e => (fuel, sizeOf e, 1)
/-- Model of the `Field` visitor of the first augment-mode pass: an
annotated field is replaced by the array
`[node, ...fragment.selectionSet.selections]`, keeping the original node,
directives and children untouched (the host visitor does not descend into
a returned array). -/
def aexpandSel (fuel : Nat) (ent : Entities) :
    SelNode → Except RewriteError SelEntry
  | .field a n ds ss =>
      if nodeHasComputedDirectives (some (.selection (.field a n ds ss))) then do
        let fragment ← addFragmentToNode fuel ent n ds
        let sels ← fragmentSelections fragment
        return .many (.one (.field a n ds ss) :: sels)
      else
        match ss with
        | none => .ok (.one (.field a n ds none))
        | some l => do
            return .one (.field a n ds (some (← aexpandEntryList fuel ent l)))
  | .fragmentSpread n ds => .ok (.one (.fragmentSpread n ds))
  | .inlineFragment tc ds l => do
      return .one (.inlineFragment tc ds (← aexpandEntryList fuel ent l))
termination_by s => (fuel, sizeOf s, 1)
/-- Model of the inner `addFragmentToNode(node)` closure: identical to
`replaceDirectiveByFragment` except that the dependency fragment is
rewritten recursively by `addFragmentsFromDirectives`. -/
def addFragmentToNode (fuel : Nat) (ent : Entities) (name : String)
    (directives : List Directive) : Except RewriteError (Option QueryNode) := do
  let computedDirective := directives.find? (fun d => d.name == "computed")
  let directiveType ← getDirectiveType computedDirective
  match slookup ent directiveType with
  | none => .error (.unknownEntityType directiveType)
  | some entityType =>
    match slookup entityType.fields name with
    | none => .error (.unknownComputedField name directiveType)
    | some entityField =>
      addFragmentsFromDirectives fuel
        ((entityField.dependencies.bind List.head?).map QueryNode.definition) ent
termination_by (fuel, 0, 1)
end

mutual
/-- Presence of a directive named `computed` anywhere in a selection node,
at any depth. -/
def selHasComputed : SelNode → Bool
  | .field _ _ ds none => ds.any (fun d => d.name == "computed")
  | .field _ _ ds (some l) =>
      ds.any (fun d => d.name == "computed") || entriesHaveComputed l
  | .fragmentSpread _ ds => ds.any (fun d => d.name == "computed")
  | .inlineFragment _ ds l =>
      ds.any (fun d => d.name == "computed") || entriesHaveComputed l
/-- Presence of a `computed` directive anywhere in a selection entry. -/
def entryHasComputed : SelEntry → Bool
  | .one s => selHasComputed s
  | .many es => entriesHaveComputed es
/-- Presence of a `computed` directive anywhere in a selection list. -/
def entriesHaveComputed : List SelEntry → Bool
  | [] => false
  | e :: rest => entryHasComputed e || entriesHaveComputed rest
end

/-- Presence of a `computed` directive anywhere in a definition. -/
def definitionHasComputed : Definition → Bool
  | .operation ds sels =>
      ds.any (fun d => d.name == "computed") || entriesHaveComputed sels
  | .fragmentDef _ _ ds sels =>
      ds.any (fun d => d.name == "computed") || entriesHaveComputed sels

/-- Presence of a `computed` directive anywhere in a query tree. -/
def nodeHasComputedAnywhere : QueryNode → Bool
  | .definition d => definitionHasComputed d
  | .document defs => defs.any definitionHasComputed

mutual
/-- Array nesting of a selection node is at most one level deep: the shape
every first-pass output has (spliced arrays contain only plain nodes). -/
def selLevel1 : SelNode → Bool
  | .field _ _ _ none => true
  | .field _ _ _ (some l) => entriesLevel1 l
  | .fragmentSpread _ _ => true
  | .inlineFragment _ _ l => entriesLevel1 l
/-- Level-one shape of a selection entry. -/
def entryLevel1 : SelEntry → Bool
  | .one s => selLevel1 s
  | .many es => onesLevel1 es
/-- Content of an array-valued entry in level-one shape: plain nodes only. -/
def onesLevel1 : List SelEntry → Bool
  | [] => true
  | .one s :: rest => selLevel1 s && onesLevel1 rest
  | .many _ :: _ => false
/-- Level-one shape of a selection list. -/
def entriesLevel1 : List SelEntry → Bool
  | [] => true
  | e :: rest => entryLevel1 e && entriesLevel1 rest
end

/-- Level-one shape of a definition. -/
def definitionLevel1 : Definition → Bool
  | .operation _ sels => entriesLevel1 sels
  | .fragmentDef _ _ _ sels => entriesLevel1 sels

/-- Level-one shape of a query tree. -/
def nodeLevel1 : QueryNode → Bool
  | .definition d => definitionLevel1 d
  | .document defs => defs.all definitionLevel1

/-- Level-one shape of the selection set of a field payload. -/
def fieldDataLevel1 (fd : FieldData) : Bool :=
  match fd.selectionSet with
  | none => true
  | some l => entriesLevel1 l

mutual
/-- Absence of array-valued entries anywhere in a selection node: the shape
of parsed input documents and of every second-pass output. -/
def selFullyOne : SelNode → Bool
  | .field _ _ _ none => true
  | .field _ _ _ (some l) => entriesFullyOne l
  | .fragmentSpread _ _ => true
  | .inlineFragment _ _ l => entriesFullyOne l
/-- Fully flat shape of a selection entry. -/
def entryFullyOne : SelEntry → Bool
  | .one s => selFullyOne s
  | .many _ => false
/-- Fully flat shape of a selection list. -/
def entriesFullyOne : List SelEntry → Bool
  | [] => true
  | e :: rest => entryFullyOne e && entriesFullyOne rest
end

/-- Fully flat shape of a definition. -/
def definitionFullyOne : Definition → Bool
  | .operation _ sels => entriesFullyOne sels
  | .fragmentDef _ _ _ sels => entriesFullyOne sels

/-- Response key of an entry when it is a field node. -/
def entryKey (e : SelEntry) : Option String :=
  (toFieldData e).map fieldKey

theorem normalizeEntries_eq (l : List SelEntry) :
    normalizeEntries l =
      ((flattenEntries l).filter (fun e => !(isFieldEntry e))).map normalizeEntry
        ++ (groupFields ((flattenEntries l).filterMap toFieldData)).map
            (fun kg => .one (normalizeField (mergeGroup kg.2))) := by
  rw [normalizeEntries]
  simp only [List.map_attach, List.pmap_eq_map]

theorem normalizeEntry_one (s : SelNode) :
    normalizeEntry (.one s) = .one (normalizeSel s) := by
  rw [normalizeEntry]

theorem normalizeEntry_many (es : List SelEntry) :
    normalizeEntry (.many es) = .many (es.map normalizeEntry) := by
  rw [normalizeEntry]
  simp only [List.map_attach, List.pmap_eq_map]

theorem flattenPassEntries_eq (l : List SelEntry) :
    flattenPassEntries l = (flattenEntries l).map flattenPassEntry := by
  rw [flattenPassEntries]
  simp only [List.map_attach, List.pmap_eq_map]

theorem flattenPassEntry_one (s : SelNode) :
    flattenPassEntry (.one s) = .one (flattenPassSel s) := by
  rw [flattenPassEntry]

theorem flattenPassEntry_many (es : List SelEntry) :
    flattenPassEntry (.many es) = .many (es.map flattenPassEntry) := by
  rw [flattenPassEntry]
  simp only [List.map_attach, List.pmap_eq_map]

theorem nodeHasComputedDirectives_field (a : Option String) (n : String)
    (ds : List Directive) (ss : Option (List SelEntry)) :
    nodeHasComputedDirectives (some (.selection (.field a n ds ss))) =
      ds.any (fun d => d.name == "computed") := by
  simp [nodeHasComputedDirectives, isNodeWithDirectives, directivesOf, Option.bind]

/-- C8: both entry points, `replaceDirectivesByFragments` and
`addFragmentsFromDirectives`, return `null` immediately when the input tree
is absent, for every registry (and, in the model, every fuel). -/
theorem entry_points_null_on_absent_tree (fuel : Nat) (entities : Entities) :
    replaceDirectivesByFragments fuel none entities = .ok none ∧
      addFragmentsFromDirectives fuel none entities = .ok none := by
  constructor
  · rw [replaceDirectivesByFragments]
  · rw [addFragmentsFromDirectives]

/-- C9: `nodeHasComputedDirectives(node)` returns true exactly when the node
exposes a `directives` list containing a directive named `computed`; an
absent node, and every node kind without a `directives` property, yields
false (the function is total, so no error is raised). -/
theorem nodeHasComputedDirectives_spec :
    (∀ n : ASTNode, nodeHasComputedDirectives (some n) = true ↔
        ∃ ds, directivesOf n = some ds ∧
          ds.any (fun d => d.name == "computed") = true) ∧
      nodeHasComputedDirectives none = false ∧
      (∀ n : ASTNode, directivesOf n = none →
        nodeHasComputedDirectives (some n) = false) := by
  refine ⟨fun n => ?_, rfl, fun n hd => ?_⟩
  · cases hd : directivesOf n with
    | none =>
      simp [nodeHasComputedDirectives, isNodeWithDirectives, Option.bind, hd]
    | some ds =>
      simp [nodeHasComputedDirectives, isNodeWithDirectives, Option.bind, hd]
  · simp [nodeHasComputedDirectives, isNodeWithDirectives, Option.bind, hd]

/-- Witness for C9 at a concrete directiveless node. -/
theorem nodeHasComputedDirectives_spec_witness :
    nodeHasComputedDirectives (some (.documentNode [])) = false :=
  nodeHasComputedDirectives_spec.2.2 (.documentNode []) rfl

/-- C10: `getDirectiveType` called on an absent directive node throws the
same `Invalid @computed directive found. No type specified` error as a
directive with a missing first argument or argument value, because every
access of `directiveNode?.arguments?.[0]?.value?.value` is null-guarded;
no null dereference occurs. -/
theorem getDirectiveType_total_on_null :
    getDirectiveType none = .error .noTypeSpecified ∧
      getDirectiveType (some ⟨"computed", none⟩) = .error .noTypeSpecified ∧
      getDirectiveType (some ⟨"computed", some []⟩) = .error .noTypeSpecified ∧
      getDirectiveType (some ⟨"computed", some [⟨none⟩]⟩) =
        .error .noTypeSpecified :=
  ⟨rfl, rfl, rfl, rfl⟩

theorem except_bind_ok {α β : Type} (x : α) (f : α → Except RewriteError β) :
    (Except.ok x >>= f) = f x := rfl

theorem except_pure_eq {α : Type} (x : α) :
    (pure x : Except RewriteError α) = Except.ok x := rfl

theorem except_bind_error {α β : Type} (e : RewriteError)
    (f : α → Except RewriteError β) :
    ((Except.error e : Except RewriteError α) >>= f) = .error e := rfl

theorem any_computed_of_getDirectiveType {ds : List Directive} {t : String}
    (h : getDirectiveType (ds.find? (fun d => d.name == "computed")) = .ok t) :
    ds.any (fun d => d.name == "computed") = true := by
  cases hf : ds.find? (fun d => d.name == "computed") with
  | none => rw [hf] at h; simp [getDirectiveType, Option.bind] at h
  | some d =>
    have hmem := List.mem_of_find?_eq_some hf
    have hp := List.find?_some hf
    exact List.any_eq_true.mpr ⟨d, hmem, by simpa using hp⟩

theorem expandSel_annotated (fuel : Nat) (ent : Entities) (a : Option String)
    (n : String) (ds : List Directive) (ss : Option (List SelEntry))
    (hany : ds.any (fun d => d.name == "computed") = true) :
    expandSel fuel ent (.field a n ds ss) =
      (replaceDirectiveByFragment fuel ent n ds >>= fun fragment =>
        fragmentSelections fragment >>= fun sels => pure (.many sels)) := by
  rw [expandSel.eq_def]
  simp [nodeHasComputedDirectives_field, hany]

theorem aexpandSel_annotated (fuel : Nat) (ent : Entities) (a : Option String)
    (n : String) (ds : List Directive) (ss : Option (List SelEntry))
    (hany : ds.any (fun d => d.name == "computed") = true) :
    aexpandSel fuel ent (.field a n ds ss) =
      (addFragmentToNode fuel ent n ds >>= fun fragment =>
        fragmentSelections fragment >>= fun sels =>
          pure (.many (.one (.field a n ds ss) :: sels))) := by
  rw [aexpandSel.eq_def]
  simp [nodeHasComputedDirectives_field, hany]

theorem replaceDirectiveByFragment_eq (fuel : Nat) (ent : Entities) (n : String)
    (ds : List Directive) {t : String}
    (hgt : getDirectiveType (ds.find? (fun d => d.name == "computed")) = .ok t) :
    replaceDirectiveByFragment fuel ent n ds =
      match slookup ent t with
      | none => .error (.unknownEntityType t)
      | some entityType =>
        match slookup entityType.fields n with
        | none => .error (.unknownComputedField n t)
        | some entityField =>
          replaceDirectivesByFragments fuel
            ((entityField.dependencies.bind List.head?).map QueryNode.definition)
            ent := by
  rw [replaceDirectiveByFragment]
  rw [hgt, except_bind_ok]

theorem addFragmentToNode_eq (fuel : Nat) (ent : Entities) (n : String)
    (ds : List Directive) {t : String}
    (hgt : getDirectiveType (ds.find? (fun d => d.name == "computed")) = .ok t) :
    addFragmentToNode fuel ent n ds =
      match slookup ent t with
      | none => .error (.unknownEntityType t)
      | some entityType =>
        match slookup entityType.fields n with
        | none => .error (.unknownComputedField n t)
        | some entityField =>
          addFragmentsFromDirectives fuel
            ((entityField.dependencies.bind List.head?).map QueryNode.definition)
            ent := by
  rw [addFragmentToNode]
  rw [hgt, except_bind_ok]

theorem replace_singleton_error (fuel : Nat) (ent : Entities) (s : SelNode)
    (e : RewriteError) (h : expandSel fuel ent s = .error e) :
    replaceDirectivesByFragments (fuel + 1)
        (some (.definition (.operation [] [.one s]))) ent = .error e := by
  rw [replaceDirectivesByFragments]
  rw [expandNode, expandDefinition, expandEntryList, expandEntry, h]
  rfl

theorem afragments_singleton_error (fuel : Nat) (ent : Entities) (s : SelNode)
    (e : RewriteError) (h : aexpandSel fuel ent s = .error e) :
    addFragmentsFromDirectives (fuel + 1)
        (some (.definition (.operation [] [.one s]))) ent = .error e := by
  rw [addFragmentsFromDirectives]
  rw [aexpandNode, aexpandDefinition, aexpandEntryList, aexpandEntry, h]
  rfl

/-- C1: for an annotated field whose registry lookups both succeed but whose
field descriptor has no declared dependency tree, the rewrite raises an
error in either mode, aborting the whole call.  The source raises the
host-language `TypeError` of `fragment.selectionSet.selections` on the
`null` resolver result; the spec names this condition `MissingDependency`. -/
theorem missing_dependency_aborts (fuel : Nat) (ent : Entities)
    (a : Option String) (n : String) (ds : List Directive)
    (ss : Option (List SelEntry)) (t : String) (et : EntityType)
    (ef : EntityField)
    (hgt : getDirectiveType (ds.find? (fun d => d.name == "computed")) = .ok t)
    (hent : slookup ent t = some et)
    (hfld : slookup et.fields n = some ef)
    (hdep : ef.dependencies = none) :
    expandSel fuel ent (.field a n ds ss) = .error .typeError ∧
      aexpandSel fuel ent (.field a n ds ss) = .error .typeError := by
  have hany := any_computed_of_getDirectiveType hgt
  constructor
  · rw [expandSel_annotated fuel ent a n ds ss hany]
    rw [replaceDirectiveByFragment_eq fuel ent n ds hgt, hent]
    simp only [hfld, hdep]
    rw [show ((none : Option (List Definition)).bind List.head?).map
          QueryNode.definition = none from rfl]
    rw [replaceDirectivesByFragments]
    rfl
  · rw [aexpandSel_annotated fuel ent a n ds ss hany]
    rw [addFragmentToNode_eq fuel ent n ds hgt, hent]
    simp only [hfld, hdep]
    rw [show ((none : Option (List Definition)).bind List.head?).map
          QueryNode.definition = none from rfl]
    rw [addFragmentsFromDirectives]
    rfl

/-- Witness for C1 at a concrete registry whose descriptor has no
dependency tree. -/
theorem missing_dependency_aborts_witness :
    expandSel 0 [("User", ⟨[("fullName", ⟨none⟩)]⟩)]
        (.field none "fullName" [⟨"computed", some [⟨some "User"⟩]⟩] none) =
      .error .typeError ∧
      aexpandSel 0 [("User", ⟨[("fullName", ⟨none⟩)]⟩)]
        (.field none "fullName" [⟨"computed", some [⟨some "User"⟩]⟩] none) =
      .error .typeError :=
  missing_dependency_aborts 0 [("User", ⟨[("fullName", ⟨none⟩)]⟩)] none
    "fullName" [⟨"computed", some [⟨some "User"⟩]⟩] none "User"
    ⟨[("fullName", ⟨none⟩)]⟩ ⟨none⟩ rfl rfl rfl rfl

/-- C6: resolution of an annotated field looks the field up by its declared
name (the alias, universally quantified here, plays no role); an entity
type absent from the registry raises `No entity found for type ...`, a
field name absent from the entity type raises `No resolver found ...`, in
both modes, and the whole rewrite aborts with the error and no partial
output. -/
theorem unknown_lookup_aborts (fuel : Nat) (ent : Entities) (a : Option String)
    (n : String) (ds : List Directive) (ss : Option (List SelEntry)) (t : String)
    (hgt : getDirectiveType (ds.find? (fun d => d.name == "computed")) = .ok t) :
    (slookup ent t = none →
      expandSel fuel ent (.field a n ds ss) = .error (.unknownEntityType t) ∧
      aexpandSel fuel ent (.field a n ds ss) = .error (.unknownEntityType t) ∧
      replaceDirectivesByFragments (fuel + 1)
          (some (.definition (.operation [] [.one (.field a n ds ss)]))) ent =
        .error (.unknownEntityType t)) ∧
    (∀ et : EntityType, slookup ent t = some et → slookup et.fields n = none →
      expandSel fuel ent (.field a n ds ss) = .error (.unknownComputedField n t) ∧
      aexpandSel fuel ent (.field a n ds ss) =
        .error (.unknownComputedField n t) ∧
      replaceDirectivesByFragments (fuel + 1)
          (some (.definition (.operation [] [.one (.field a n ds ss)]))) ent =
        .error (.unknownComputedField n t)) := by
  have hany := any_computed_of_getDirectiveType hgt
  constructor
  · intro hent
    have h1 : expandSel fuel ent (.field a n ds ss) =
        .error (.unknownEntityType t) := by
      rw [expandSel_annotated fuel ent a n ds ss hany]
      rw [replaceDirectiveByFragment_eq fuel ent n ds hgt, hent]
      rfl
    have h2 : aexpandSel fuel ent (.field a n ds ss) =
        .error (.unknownEntityType t) := by
      rw [aexpandSel_annotated fuel ent a n ds ss hany]
      rw [addFragmentToNode_eq fuel ent n ds hgt, hent]
      rfl
    exact ⟨h1, h2, replace_singleton_error fuel ent _ _ h1⟩
  · intro et hent hfld
    have h1 : expandSel fuel ent (.field a n ds ss) =
        .error (.unknownComputedField n t) := by
      rw [expandSel_annotated fuel ent a n ds ss hany]
      rw [replaceDirectiveByFragment_eq fuel ent n ds hgt, hent]
      simp only [hfld]
      rfl
    have h2 : aexpandSel fuel ent (.field a n ds ss) =
        .error (.unknownComputedField n t) := by
      rw [aexpandSel_annotated fuel ent a n ds ss hany]
      rw [addFragmentToNode_eq fuel ent n ds hgt, hent]
      simp only [hfld]
      rfl
    exact ⟨h1, h2, replace_singleton_error fuel ent _ _ h1⟩

/-- Witness for C6: an empty registry raises `unknownEntityType`, and a
registry with the entity type but not the field raises
`unknownComputedField`, alias present and ignored. -/
theorem unknown_lookup_aborts_witness :
    expandSel 0 [] (.field (some "x") "f" [⟨"computed", some [⟨some "T"⟩]⟩] none) =
      .error (.unknownEntityType "T") ∧
      expandSel 0 [("T", ⟨[]⟩)]
          (.field (some "x") "f" [⟨"computed", some [⟨some "T"⟩]⟩] none) =
        .error (.unknownComputedField "f" "T") :=
  ⟨((unknown_lookup_aborts 0 [] (some "x") "f"
      [⟨"computed", some [⟨some "T"⟩]⟩] none "T" rfl).1 rfl).1,
   ((unknown_lookup_aborts 0 [("T", ⟨[]⟩)] (some "x") "f"
      [⟨"computed", some [⟨some "T"⟩]⟩] none "T" rfl).2 ⟨[]⟩ rfl rfl).1⟩

/-- C3: in the second replace-mode pass, two `Field` nodes sharing one
response key merge into a single `Field` node whose scalar properties come
from the later field (third conjunct: with a shared alias, the later
declared name overwrites the earlier one), whose directive and selection
lists are the concatenations in group order, and whose merged selection
set is itself normalized; in particular the two distinct sub-selections of
the example merge to the concatenation in order, without duplicates. -/
theorem merge_same_key_fields :
    (∀ (k : String) (ds1 ds2 : List Directive) (l1 l2 : List SelEntry),
      normalizeEntries [.one (.field none k ds1 (some l1)),
          .one (.field none k ds2 (some l2))] =
        [.one (.field none k (stripComputed (ds1 ++ ds2))
          (some (normalizeEntries (l1 ++ l2))))]) ∧
    (∀ (k a b : String), ¬(a = b) →
      normalizeEntries [.one (.field none k [] (some [.one (.field none a [] none)])),
          .one (.field none k [] (some [.one (.field none b [] none)]))] =
        [.one (.field none k []
          (some [.one (.field none a [] none), .one (.field none b [] none)]))]) ∧
    (∀ (k n1 n2 : String) (ds1 ds2 : List Directive) (l1 l2 : List SelEntry),
      normalizeEntries [.one (.field (some k) n1 ds1 (some l1)),
          .one (.field (some k) n2 ds2 (some l2))] =
        [.one (.field (some k) n2 (stripComputed (ds1 ++ ds2))
          (some (normalizeEntries (l1 ++ l2))))]) := by
  have hmain : ∀ (k : String) (ds1 ds2 : List Directive) (l1 l2 : List SelEntry),
      normalizeEntries [.one (.field none k ds1 (some l1)),
          .one (.field none k ds2 (some l2))] =
        [.one (.field none k (stripComputed (ds1 ++ ds2))
          (some (normalizeEntries (l1 ++ l2))))] := by
    intro k ds1 ds2 l1 l2
    rw [normalizeEntries_eq]
    simp [flattenEntries, isFieldEntry, toFieldData, groupFields, insertGroup,
      slookup, fieldKey, mergeGroup, mergeTwoFields, normalizeField]
  refine ⟨hmain, fun k a b hab => ?_, fun k n1 n2 ds1 ds2 l1 l2 => ?_⟩
  · rw [hmain k [] [] [.one (.field none a [] none)] [.one (.field none b [] none)]]
    rw [normalizeEntries_eq]
    simp [flattenEntries, isFieldEntry, toFieldData, groupFields, insertGroup,
      slookup, fieldKey, mergeGroup, mergeTwoFields, normalizeField, stripComputed,
      hab]
  · rw [normalizeEntries_eq]
    simp [flattenEntries, isFieldEntry, toFieldData, groupFields, insertGroup,
      slookup, fieldKey, mergeGroup, mergeTwoFields, normalizeField]

/-- Witness for C3 at concrete distinct sub-selection names. -/
theorem merge_same_key_fields_witness :
    ¬("x" = "y") ∧
      normalizeEntries
          [.one (.field none "f" [] (some [.one (.field none "x" [] none)])),
           .one (.field none "f" [] (some [.one (.field none "y" [] none)]))] =
        [.one (.field none "f" []
          (some [.one (.field none "x" [] none), .one (.field none "y" [] none)]))] :=
  ⟨by decide, merge_same_key_fields.2.1 "f" "x" "y" (by decide)⟩

theorem foldl_insertGroup_invariant (Q : String × List FieldData → Prop)
    (hins : ∀ acc f, (∀ kg ∈ acc, Q kg) → ∀ kg ∈ insertGroup acc f, Q kg) :
    ∀ (fs : List FieldData) (acc : List (String × List FieldData)),
      (∀ kg ∈ acc, Q kg) → ∀ kg ∈ fs.foldl insertGroup acc, Q kg := by
  intro fs
  induction fs with
  | nil => intro acc hacc kg hkg; exact hacc kg hkg
  | cons f fs ih =>
    intro acc hacc kg hkg
    rw [List.foldl_cons] at hkg
    exact ih (insertGroup acc f) (hins acc f hacc) kg hkg

theorem groupFields_key_invariant : ∀ {fs : List FieldData}
    {kg : String × List FieldData}, kg ∈ groupFields fs →
    ∀ f ∈ kg.2, fieldKey f = kg.1 := by
  intro fs kg hkg
  refine foldl_insertGroup_invariant (fun kg => ∀ f ∈ kg.2, fieldKey f = kg.1)
    ?_ fs [] (by simp) kg hkg
  intro acc f hacc kg2 hkg2
  rw [insertGroup] at hkg2
  cases hsl : slookup acc (fieldKey f) <;> rw [hsl] at hkg2
  · rcases List.mem_append.mp hkg2 with h | h
    · exact hacc kg2 h
    · simp only [List.mem_singleton] at h
      subst h
      intro f2 hf2
      simp only [List.mem_singleton] at hf2
      rw [hf2]
  · rcases List.mem_map.mp hkg2 with ⟨kg0, h0, heq⟩
    by_cases hc : kg0.1 == fieldKey f
    · rw [if_pos hc] at heq
      subst heq
      intro f2 hf2
      rcases List.mem_append.mp hf2 with h | h
      · exact hacc kg0 h0 f2 h
      · simp only [List.mem_singleton] at h
        rw [h]
        exact (eq_of_beq hc).symm
    · rw [if_neg hc] at heq
      subst heq
      exact hacc kg0 h0

theorem groupFields_nonempty : ∀ {fs : List FieldData}
    {kg : String × List FieldData}, kg ∈ groupFields fs → kg.2 ≠ [] := by
  intro fs kg hkg
  refine foldl_insertGroup_invariant (fun kg => kg.2 ≠ []) ?_ fs [] (by simp)
    kg hkg
  intro acc f hacc kg2 hkg2
  rw [insertGroup] at hkg2
  cases hsl : slookup acc (fieldKey f) <;> rw [hsl] at hkg2
  · rcases List.mem_append.mp hkg2 with h | h
    · exact hacc kg2 h
    · simp only [List.mem_singleton] at h
      subst h
      simp
  · rcases List.mem_map.mp hkg2 with ⟨kg0, h0, heq⟩
    by_cases hc : kg0.1 == fieldKey f
    · rw [if_pos hc] at heq
      subst heq
      simp
    · rw [if_neg hc] at heq
      subst heq
      exact hacc kg0 h0

theorem fieldKey_mergeTwoFields {a b : FieldData} {k : String}
    (ha : fieldKey a = k) (hb : fieldKey b = k) :
    fieldKey (mergeTwoFields a b) = k := by
  cases hba : b.fieldAlias with
  | some x =>
    rw [fieldKey, hba] at hb
    simp only [mergeTwoFields, fieldKey, hba]
    exact hb
  | none =>
    rw [fieldKey, hba] at hb
    simp only [Option.getD] at hb
    cases haa : a.fieldAlias with
    | some y =>
      rw [fieldKey, haa] at ha
      simp only [mergeTwoFields, fieldKey, hba, haa]
      exact ha
    | none =>
      simp only [mergeTwoFields, fieldKey, hba, haa]
      simp only [Option.getD]
      exact hb

theorem fieldKey_mergeGroup {g : List FieldData} {k : String} (hne : g ≠ [])
    (h : ∀ f ∈ g, fieldKey f = k) : fieldKey (mergeGroup g) = k := by
  cases g with
  | nil => exact absurd rfl hne
  | cons x xs =>
    rw [mergeGroup]
    have aux : ∀ (t : List FieldData) (hd : FieldData), fieldKey hd = k →
        (∀ f ∈ t, fieldKey f = k) → fieldKey (t.foldl mergeTwoFields hd) = k := by
      intro t
      induction t with
      | nil => intro hd hhd _; exact hhd
      | cons y ys ih =>
        intro hd hhd ht
        rw [List.foldl_cons]
        exact ih (mergeTwoFields hd y)
          (fieldKey_mergeTwoFields hhd (ht y (by simp)))
          (fun f hf => ht f (by simp [hf]))
    exact aux xs x (h x (by simp)) (fun f hf => h f (by simp [hf]))

theorem slookup_insertGroup_isNone (acc : List (String × List FieldData))
    (f : FieldData) (k : String) :
    (slookup (insertGroup acc f) k).isNone =
      ((slookup acc k).isNone && !(k == fieldKey f)) := by
  have happend : ∀ (acc2 : List (String × List FieldData)),
      slookup acc2 (fieldKey f) = none →
      (slookup (acc2 ++ [(fieldKey f, [f])]) k).isNone =
        ((slookup acc2 k).isNone && !(k == fieldKey f)) := by
    intro acc2
    induction acc2 with
    | nil =>
      intro _
      by_cases hc : k = fieldKey f
      · subst hc
        simp [slookup]
      · have hb : (fieldKey f == k) = false :=
          beq_eq_false_iff_ne.mpr (fun h => hc h.symm)
        have hb2 : (k == fieldKey f) = false := beq_eq_false_iff_ne.mpr hc
        simp [slookup, hb, hb2]
    | cons p rest ih =>
      intro hsl
      cases p with
      | mk k1 g1 =>
        rw [slookup] at hsl
        by_cases hc : k1 == fieldKey f
        · rw [if_pos hc] at hsl
          cases hsl
        · rw [if_neg hc] at hsl
          by_cases hck : k1 == k
          · have hkk : k1 = k := eq_of_beq hck
            have hne2 : (k == fieldKey f) = false := by
              refine beq_eq_false_iff_ne.mpr ?_
              rw [← hkk]
              intro hEq
              exact hc (beq_iff_eq.mpr hEq)
            simp [slookup, hck, hne2]
          · simp [slookup, hck, ih hsl]
  have hkeys : ∀ (acc2 : List (String × List FieldData)),
      (slookup (acc2.map (fun kg =>
        if kg.1 == fieldKey f then (kg.1, kg.2 ++ [f]) else kg)) k).isNone =
        (slookup acc2 k).isNone := by
    intro acc2
    induction acc2 with
    | nil => rfl
    | cons p rest ih =>
      rw [List.map_cons, slookup, slookup]
      have hfst : ((fun kg =>
          if kg.1 == fieldKey f then (kg.1, kg.2 ++ [f]) else kg) p).1 = p.1 := by
        by_cases hc : p.1 == fieldKey f
        · show (if p.1 == fieldKey f then (p.1, p.2 ++ [f]) else p).1 = p.1
          rw [if_pos hc]
        · show (if p.1 == fieldKey f then (p.1, p.2 ++ [f]) else p).1 = p.1
          rw [if_neg hc]
      rw [hfst]
      by_cases hck : p.1 == k
      · rw [if_pos hck, if_pos hck]
        rfl
      · rw [if_neg hck, if_neg hck]
        exact ih
  rw [insertGroup]
  cases hsl : slookup acc (fieldKey f) with
  | none =>
    exact happend acc hsl
  | some g0 =>
    rw [hkeys acc]
    by_cases hc : k = fieldKey f
    · subst hc
      simp [hsl]
    · have hb2 : (k == fieldKey f) = false := beq_eq_false_iff_ne.mpr hc
      simp [hb2]

theorem upd_fst (kf : String) (f : FieldData) (p : String × List FieldData) :
    ((fun kg => if kg.1 == kf then (kg.1, kg.2 ++ [f]) else kg) p).1 = p.1 := by
  by_cases hc : p.1 == kf
  · show (if p.1 == kf then (p.1, p.2 ++ [f]) else p).1 = p.1
    rw [if_pos hc]
  · show (if p.1 == kf then (p.1, p.2 ++ [f]) else p).1 = p.1
    rw [if_neg hc]

theorem insertGroup_map_fst_some {acc : List (String × List FieldData)}
    {f : FieldData} {g0 : List FieldData}
    (hsl : slookup acc (fieldKey f) = some g0) :
    (insertGroup acc f).map Prod.fst = acc.map Prod.fst := by
  rw [insertGroup]
  rw [hsl]
  rw [List.map_map]
  refine List.map_congr_left fun p hp => ?_
  exact upd_fst (fieldKey f) f p

theorem insertGroup_map_fst_none {acc : List (String × List FieldData)}
    {f : FieldData} (hsl : slookup acc (fieldKey f) = none) :
    (insertGroup acc f).map Prod.fst = acc.map Prod.fst ++ [fieldKey f] := by
  rw [insertGroup]
  rw [hsl]
  rw [List.map_append]
  rfl

theorem keys_foldl_insertGroup : ∀ (fs : List FieldData)
    (acc : List (String × List FieldData)),
    (fs.foldl insertGroup acc).map Prod.fst =
      acc.map Prod.fst ++
        dedupFirst ((fs.map fieldKey).filter (fun k => (slookup acc k).isNone)) := by
  intro fs
  induction fs with
  | nil =>
    intro acc
    simp [dedupFirst]
  | cons f fs ih =>
    intro acc
    rw [List.foldl_cons, ih (insertGroup acc f)]
    simp only [slookup_insertGroup_isNone]
    cases hsl : slookup acc (fieldKey f) with
    | some g0 =>
      rw [insertGroup_map_fst_some hsl]
      have hpt : ∀ k, ((slookup acc k).isNone && !(k == fieldKey f)) =
          (slookup acc k).isNone := by
        intro k
        by_cases hk : k = fieldKey f
        · subst hk
          rw [hsl]
          simp
        · simp [beq_eq_false_iff_ne.mpr hk]
      simp only [hpt]
      have hhead : ((slookup acc (fieldKey f)).isNone) = false := by
        rw [hsl]; rfl
      rw [List.map_cons, List.filter_cons]
      rw [hhead]
      simp
    | none =>
      rw [insertGroup_map_fst_none hsl]
      have hhead : ((slookup acc (fieldKey f)).isNone) = true := by
        rw [hsl]; rfl
      rw [List.map_cons, List.filter_cons, hhead]
      simp only [if_true]
      rw [dedupFirst]
      have hff : ((fs.map fieldKey).filter
            (fun k => (slookup acc k).isNone)).filter
              (fun x => !(x == fieldKey f)) =
          (fs.map fieldKey).filter
            (fun k => (slookup acc k).isNone && !(k == fieldKey f)) := by
        rw [List.filter_filter]
        refine List.filter_congr fun x hx => ?_
        exact Bool.and_comm _ _
      rw [← hff]
      simp

theorem groupFields_keys (fs : List FieldData) :
    (groupFields fs).map Prod.fst = dedupFirst (fs.map fieldKey) := by
  have h := keys_foldl_insertGroup fs []
  simpa [groupFields, slookup] using h

theorem isFieldEntry_one_normalizeField (fd : FieldData) :
    isFieldEntry (.one (normalizeField fd)) = true := by
  cases fd with
  | mk a n ds ss => cases ss <;> simp [normalizeField, isFieldEntry, toFieldData]

theorem entryKey_one_normalizeField (fd : FieldData) :
    entryKey (.one (normalizeField fd)) = some (fieldKey fd) := by
  cases fd with
  | mk a n ds ss => cases ss <;> simp [normalizeField, entryKey, toFieldData, fieldKey]

/-- C4: every rewritten selection list of the second replace-mode pass is
the non-`Field` entries of the flattened input, in their original relative
order, followed by the merged `Field` nodes whose response keys are the
field keys of the flattened input in first-seen order with duplicates
removed; non-`Field` entries are not interleaved back between fields. -/
theorem reassembly_order (l : List SelEntry) :
    ∃ fieldsPart : List SelEntry,
      normalizeEntries l =
        ((flattenEntries l).filter (fun e => !(isFieldEntry e))).map
            normalizeEntry ++ fieldsPart ∧
      (∀ e ∈ fieldsPart, isFieldEntry e = true) ∧
      fieldsPart.filterMap entryKey =
        dedupFirst (((flattenEntries l).filterMap toFieldData).map fieldKey) := by
  refine ⟨(groupFields ((flattenEntries l).filterMap toFieldData)).map
      (fun kg => .one (normalizeField (mergeGroup kg.2))), normalizeEntries_eq l,
    ?_, ?_⟩
  · intro e he
    rcases List.mem_map.mp he with ⟨kg, hkg, heq⟩
    rw [← heq]
    exact isFieldEntry_one_normalizeField _
  · have h1 : ∀ kg ∈ groupFields ((flattenEntries l).filterMap toFieldData),
        entryKey (.one (normalizeField (mergeGroup kg.2))) = some kg.1 := by
      intro kg hkg
      rw [entryKey_one_normalizeField]
      rw [fieldKey_mergeGroup (groupFields_nonempty hkg)
        (groupFields_key_invariant hkg)]
    have haux : ∀ (gs : List (String × List FieldData)),
        (∀ kg ∈ gs,
          entryKey (.one (normalizeField (mergeGroup kg.2))) = some kg.1) →
        (gs.map (fun kg =>
          SelEntry.one (normalizeField (mergeGroup kg.2)))).filterMap entryKey =
          gs.map Prod.fst := by
      intro gs
      induction gs with
      | nil => intro _; rfl
      | cons x rest ihg =>
        intro hgs
        rw [List.map_cons, List.filterMap_cons, hgs x (by simp)]
        rw [ihg fun kg hkg => hgs kg (by simp [hkg])]
        rfl
    rw [haux _ h1, groupFields_keys]

/-- Witness for C4 is not required (no hypotheses), but the shape is
exercised by the other claims. -/
theorem reassembly_order_example :
    normalizeEntries [.one (.fragmentSpread "S" []),
        .one (.field none "a" [] none), .one (.fragmentSpread "T" []),
        .one (.field none "b" [] none)] =
      [.one (.fragmentSpread "S" []), .one (.fragmentSpread "T" []),
        .one (.field none "a" [] none), .one (.field none "b" [] none)] := by
  rw [normalizeEntries_eq]
  simp [flattenEntries, isFieldEntry, toFieldData, groupFields, insertGroup,
    slookup, fieldKey, mergeGroup, mergeTwoFields, normalizeField, normalizeEntry,
    normalizeSel, stripComputed]

theorem stripComputed_any_false (ds : List Directive) :
    (stripComputed ds).any (fun d => d.name == "computed") = false := by
  induction ds with
  | nil => rfl
  | cons d rest ih =>
    rw [stripComputed, List.filter_cons]
    cases hd : d.name == "computed" with
    | true =>
      simp only [Bool.not_true]
      rw [if_neg (by simp)]
      exact ih
    | false =>
      rw [if_pos (by simp [hd])]
      rw [List.any_cons]
      simp only [hd, Bool.false_or]
      exact ih

theorem entriesHaveComputed_eq_false_iff (xs : List SelEntry) :
    entriesHaveComputed xs = false ↔ ∀ e ∈ xs, entryHasComputed e = false := by
  induction xs with
  | nil => simp [entriesHaveComputed]
  | cons e rest ih =>
    rw [entriesHaveComputed]
    simp [ih]

theorem norm_noComputed : ∀ (D : Nat),
    (∀ s, depthSel s ≤ D → selHasComputed (normalizeSel s) = false) ∧
    (∀ fd, depthField fd ≤ D → selHasComputed (normalizeField fd) = false) ∧
    (∀ e, depthEntry e ≤ D → entryHasComputed (normalizeEntry e) = false) ∧
    (∀ l, depthEntries l ≤ D →
      entriesHaveComputed (normalizeEntries l) = false) := by
  intro D
  induction D using Nat.strong_induction_on with
  | _ D IH =>
    have hSel : ∀ s, depthSel s ≤ D → selHasComputed (normalizeSel s) = false := by
      intro s hs
      cases s with
      | field a n ds ss =>
        cases ss with
        | none => simp [normalizeSel, selHasComputed, stripComputed_any_false]
        | some cl =>
          rw [depthSel] at hs
          have hcl : depthEntries cl < D := by omega
          rw [normalizeSel]
          rw [selHasComputed]
          rw [stripComputed_any_false]
          rw [(IH (depthEntries cl) hcl).2.2.2 cl le_rfl]
          rfl
      | fragmentSpread n ds =>
        simp [normalizeSel, selHasComputed, stripComputed_any_false]
      | inlineFragment tc ds cl =>
        rw [depthSel] at hs
        have hcl : depthEntries cl < D := by omega
        rw [normalizeSel, selHasComputed, stripComputed_any_false]
        rw [(IH (depthEntries cl) hcl).2.2.2 cl le_rfl]
        rfl
    have hField : ∀ fd, depthField fd ≤ D →
        selHasComputed (normalizeField fd) = false := by
      intro fd hfd
      cases fd with
      | mk a n ds ss =>
        cases ss with
        | none => simp [normalizeField, selHasComputed, stripComputed_any_false]
        | some cl =>
          simp only [depthField] at hfd
          have hcl : depthEntries cl < D := by omega
          rw [normalizeField, selHasComputed, stripComputed_any_false]
          rw [(IH (depthEntries cl) hcl).2.2.2 cl le_rfl]
          rfl
    have hEntry : ∀ e, depthEntry e ≤ D →
        entryHasComputed (normalizeEntry e) = false := by
      intro e he
      cases e with
      | one s =>
        rw [normalizeEntry_one, entryHasComputed]
        exact hSel s (by rw [depthEntry] at he; exact he)
      | many es =>
        rw [depthEntry] at he
        have hes : depthEntries es < D := by omega
        rw [normalizeEntry_many, entryHasComputed]
        rw [entriesHaveComputed_eq_false_iff]
        intro e2 he2
        rcases List.mem_map.mp he2 with ⟨e0, he0, heq⟩
        rw [← heq]
        exact (IH (depthEntries es) hes).2.2.1 e0 (depthEntry_le_of_mem he0)
    refine ⟨hSel, hField, hEntry, ?_⟩
    intro l hl
    rw [normalizeEntries_eq, entriesHaveComputed_eq_false_iff]
    intro e he
    rcases List.mem_append.mp he with h | h
    · rcases List.mem_map.mp h with ⟨e0, he0, heq⟩
      rw [← heq]
      exact hEntry e0
        (le_trans (depthEntry_le_of_mem_flatten (List.mem_of_mem_filter he0)) hl)
    · rcases List.mem_map.mp h with ⟨kg, hkg, heq⟩
      rw [← heq, entryHasComputed]
      exact hField (mergeGroup kg.2)
        (le_trans (depthField_mergeGroup_flatten_le hkg) hl)

theorem normalizeDefinition_noComputed (d : Definition) :
    definitionHasComputed (normalizeDefinition d) = false := by
  cases d with
  | operation ds sels =>
    rw [normalizeDefinition, definitionHasComputed, stripComputed_any_false]
    rw [(norm_noComputed (depthEntries sels)).2.2.2 sels le_rfl]
    rfl
  | fragmentDef n tc ds sels =>
    rw [normalizeDefinition, definitionHasComputed, stripComputed_any_false]
    rw [(norm_noComputed (depthEntries sels)).2.2.2 sels le_rfl]
    rfl

/-- C2: whenever `replaceDirectivesByFragments` completes without error on a
present input tree, the output contains no directive named `computed`
anywhere, at any depth, including inside recursively resolved dependency
fragments (every selection of the output passes through the stripping
second pass). -/
theorem replace_output_no_computed (fuel : Nat) (q : Option QueryNode)
    (ent : Entities) (out : QueryNode)
    (h : replaceDirectivesByFragments fuel q ent = .ok (some out)) :
    nodeHasComputedAnywhere out = false := by
  cases q with
  | none =>
    rw [replaceDirectivesByFragments] at h
    cases h
  | some q0 =>
    cases fuel with
    | zero =>
      rw [replaceDirectivesByFragments] at h
      cases h
    | succ f =>
      rw [replaceDirectivesByFragments] at h
      cases hx : expandNode f ent q0 with
      | error e => rw [hx] at h; cases h
      | ok fp =>
        rw [hx, except_bind_ok] at h
        have hout : out = normalizeNode fp := by
          cases h
          rfl
        subst hout
        cases fp with
        | definition d =>
          rw [normalizeNode, nodeHasComputedAnywhere]
          exact normalizeDefinition_noComputed d
        | document defs =>
          rw [normalizeNode, nodeHasComputedAnywhere]
          rw [List.any_eq_false]
          intro d hd
          rcases List.mem_map.mp hd with ⟨d0, hd0, heq⟩
          rw [← heq]
          simp [normalizeDefinition_noComputed d0]

/-- Witness for C2 at a concrete successful run. -/
theorem replace_output_no_computed_witness :
    nodeHasComputedAnywhere (.definition (.operation [] [])) = false := by
  refine replace_output_no_computed 1 (some (.definition (.operation [] []))) []
    (.definition (.operation [] [])) ?_
  rw [replaceDirectivesByFragments]
  rw [expandNode, expandDefinition, expandEntryList]
  simp only [except_pure_eq, except_bind_ok]
  rw [normalizeNode, normalizeDefinition]
  rw [show normalizeEntries [] = [] by
    rw [normalizeEntries_eq]; rfl]
  rfl

theorem flattenEntries_append (a b : List SelEntry) :
    flattenEntries (a ++ b) = flattenEntries a ++ flattenEntries b := by
  induction a with
  | nil => simp [flattenEntries]
  | cons e rest ih =>
    cases e with
    | one s => simp [flattenEntries, ih]
    | many es => simp [flattenEntries, ih]

theorem flattenPass_id : ∀ (D : Nat),
    (∀ s, selFullyOne s = true → depthSel s ≤ D → flattenPassSel s = s) ∧
    (∀ e, entryFullyOne e = true → depthEntry e ≤ D → flattenPassEntry e = e) ∧
    (∀ l, entriesFullyOne l = true → depthEntries l ≤ D →
      flattenPassEntries l = l) := by
  intro D
  induction D using Nat.strong_induction_on with
  | _ D IH =>
    have hSel : ∀ s, selFullyOne s = true → depthSel s ≤ D →
        flattenPassSel s = s := by
      intro s hfo hs
      cases s with
      | field a n ds ss =>
        cases ss with
        | none => rw [flattenPassSel]
        | some cl =>
          rw [depthSel] at hs
          rw [selFullyOne] at hfo
          have hcl : depthEntries cl < D := by omega
          rw [flattenPassSel]
          rw [(IH (depthEntries cl) hcl).2.2 cl hfo le_rfl]
      | fragmentSpread n ds => rw [flattenPassSel]
      | inlineFragment tc ds cl =>
        rw [depthSel] at hs
        rw [selFullyOne] at hfo
        have hcl : depthEntries cl < D := by omega
        rw [flattenPassSel]
        rw [(IH (depthEntries cl) hcl).2.2 cl hfo le_rfl]
    have hEntry : ∀ e, entryFullyOne e = true → depthEntry e ≤ D →
        flattenPassEntry e = e := by
      intro e hfo he
      cases e with
      | one s =>
        rw [flattenPassEntry_one]
        rw [entryFullyOne] at hfo
        rw [depthEntry] at he
        rw [hSel s hfo he]
      | many es => rw [entryFullyOne] at hfo; cases hfo
    refine ⟨hSel, hEntry, ?_⟩
    intro l hfo hl
    have hones : flattenEntries l = l := by
      clear hl
      induction l with
      | nil => rfl
      | cons e rest ih =>
        cases e with
        | one s =>
          rw [entriesFullyOne] at hfo
          rw [flattenEntries, ih (by
            simp only [Bool.and_eq_true] at hfo
            exact hfo.2)]
        | many es =>
          rw [entriesFullyOne] at hfo
          simp only [Bool.and_eq_true] at hfo
          have h1 := hfo.1
          rw [entryFullyOne] at h1
          cases h1
    rw [flattenPassEntries_eq, hones]
    have : ∀ e ∈ l, flattenPassEntry e = e := by
      intro e he
      refine hEntry e ?_ (le_trans (depthEntry_le_of_mem he) hl)
      revert hfo he
      clear hl hones
      induction l with
      | nil => intro _ he; cases he
      | cons x rest ih =>
        intro hfo he
        rw [entriesFullyOne] at hfo
        simp only [Bool.and_eq_true] at hfo
        rcases List.mem_cons.mp he with heq | hmem
        · rw [heq]; exact hfo.1
        · exact ih hfo.2 hmem
    rw [List.map_congr_left this]
    exact List.map_id' l

theorem flattenPassSel_id {s : SelNode} (h : selFullyOne s = true) :
    flattenPassSel s = s :=
  (flattenPass_id (depthSel s)).1 s h le_rfl

theorem flattenPassEntries_id {l : List SelEntry}
    (h : entriesFullyOne l = true) : flattenPassEntries l = l :=
  (flattenPass_id (depthEntries l)).2.2 l h le_rfl

theorem entriesFullyOne_forall {l : List SelEntry}
    (h : entriesFullyOne l = true) : ∀ e ∈ l, entryFullyOne e = true := by
  induction l with
  | nil => intro e he; cases he
  | cons x rest ih =>
    intro e he
    rw [entriesFullyOne] at h
    simp only [Bool.and_eq_true] at h
    rcases List.mem_cons.mp he with heq | hmem
    · rw [heq]; exact h.1
    · exact ih h.2 e hmem

theorem aexpandEntryList_append_ok {fuel : Nat} {ent : Entities}
    {b : List SelEntry} {rb : List SelEntry}
    (hpb : aexpandEntryList fuel ent b = .ok rb) :
    ∀ {a : List SelEntry} {ra : List SelEntry},
    aexpandEntryList fuel ent a = .ok ra →
    aexpandEntryList fuel ent (a ++ b) = .ok (ra ++ rb) := by
  intro a
  induction a with
  | nil =>
    intro ra hpa
    rw [aexpandEntryList] at hpa
    cases hpa
    simpa using hpb
  | cons e rest ih =>
    intro ra hpa
    rw [aexpandEntryList] at hpa
    cases hx : aexpandEntry fuel ent e with
    | error err => rw [hx, except_bind_error] at hpa; cases hpa
    | ok x =>
      rw [hx, except_bind_ok] at hpa
      cases hy : aexpandEntryList fuel ent rest with
      | error err => rw [hy, except_bind_error] at hpa; cases hpa
      | ok xs =>
        rw [hy, except_bind_ok, except_pure_eq] at hpa
        cases hpa
        rw [List.cons_append, aexpandEntryList, hx, except_bind_ok,
          ih hy, except_bind_ok, except_pure_eq]
        rfl

/-- C5: in augment mode an annotated field is replaced by the array
`[originalFieldNode, ...resolvedFragment.selections]`: the original field
is retained unchanged, with its `computed` directive still attached,
followed by the resolved dependency selections as later siblings of the
same selection set; and the second augment-mode pass only flattens one
array level — on fully flat trees it is the identity, so it performs no
field merging and no directive stripping. -/
theorem augment_keeps_field (fuel : Nat) (ent : Entities) (ds0 : List Directive)
    (pre post : List SelEntry) (a : Option String) (n : String)
    (ds : List Directive) (ss : Option (List SelEntry))
    (frag : Option QueryNode) (sels : List SelEntry) (pe po : List SelEntry)
    (hany : (ds.any fun d => d.name == "computed") = true)
    (hfrag : addFragmentToNode fuel ent n ds = .ok frag)
    (hsels : fragmentSelections frag = .ok sels)
    (hpre : aexpandEntryList fuel ent pre = .ok pe)
    (hpost : aexpandEntryList fuel ent post = .ok po)
    (hf : selFullyOne (.field a n ds ss) = true)
    (hflat : entriesFullyOne sels = true) :
    addFragmentsFromDirectives (fuel + 1)
        (some (.definition (.operation ds0
          (pre ++ .one (.field a n ds ss) :: post)))) ent =
      .ok (some (.definition (.operation ds0
        (flattenPassEntries pe ++
          .one (.field a n ds ss) :: (sels ++ flattenPassEntries po))))) ∧
    (∀ l2 : List SelEntry, entriesFullyOne l2 = true →
      flattenPassEntries l2 = l2) := by
  refine ⟨?_, fun l2 h2 => flattenPassEntries_id h2⟩
  have hsel : aexpandSel fuel ent (.field a n ds ss) =
      .ok (.many (.one (.field a n ds ss) :: sels)) := by
    rw [aexpandSel_annotated fuel ent a n ds ss hany, hfrag, except_bind_ok,
      hsels, except_bind_ok, except_pure_eq]
  have hmid : aexpandEntryList fuel ent (.one (.field a n ds ss) :: post) =
      .ok (.many (.one (.field a n ds ss) :: sels) :: po) := by
    rw [aexpandEntryList, aexpandEntry, hsel, except_bind_ok, hpost,
      except_bind_ok, except_pure_eq]
  have hlist := aexpandEntryList_append_ok hmid hpre
  rw [addFragmentsFromDirectives]
  rw [aexpandNode, aexpandDefinition]
  rw [hlist]
  simp only [except_pure_eq, except_bind_ok]
  rw [flattenPassNode, flattenPassDefinition]
  rw [flattenPassEntries_eq, flattenEntries_append, flattenEntries]
  rw [List.map_append, ← flattenPassEntries_eq]
  rw [List.map_append, ← flattenPassEntries_eq]
  rw [List.map_cons, flattenPassEntry_one, flattenPassSel_id hf]
  rw [List.map_congr_left
    (fun e he => (flattenPass_id (depthEntries sels)).2.1 e
      (entriesFullyOne_forall hflat e he) (depthEntry_le_of_mem he))]
  rw [List.map_id']
  rw [List.cons_append]

/-- Witness for C5 at a concrete registry whose dependency fragment has an
empty selection set. -/
theorem augment_keeps_field_witness :
    addFragmentsFromDirectives 2
        (some (.definition (.operation []
          [.one (.field none "fullName"
            [⟨"computed", some [⟨some "User"⟩]⟩] none)])))
        [("User", ⟨[("fullName",
          ⟨some [.fragmentDef "F" "User" [] []]⟩)]⟩)] =
      .ok (some (.definition (.operation []
        [.one (.field none "fullName"
          [⟨"computed", some [⟨some "User"⟩]⟩] none)]))) := by
  have hfrag : addFragmentToNode 1
      [("User", ⟨[("fullName", ⟨some [.fragmentDef "F" "User" [] []]⟩)]⟩)]
      "fullName" [⟨"computed", some [⟨some "User"⟩]⟩] =
      .ok (some (.definition (.fragmentDef "F" "User" [] []))) := by
    rw [addFragmentToNode_eq 1
      [("User", ⟨[("fullName", ⟨some [.fragmentDef "F" "User" [] []]⟩)]⟩)]
      "fullName" [⟨"computed", some [⟨some "User"⟩]⟩] rfl]
    show addFragmentsFromDirectives 1
      (some (.definition (.fragmentDef "F" "User" [] [])))
      [("User", ⟨[("fullName", ⟨some [.fragmentDef "F" "User" [] []]⟩)]⟩)] =
      .ok (some (.definition (.fragmentDef "F" "User" [] [])))
    rw [addFragmentsFromDirectives]
    rw [aexpandNode, aexpandDefinition, aexpandEntryList]
    simp only [except_pure_eq, except_bind_ok]
    rw [flattenPassNode, flattenPassDefinition,
      flattenPassEntries_id (by rfl)]
  have h := (augment_keeps_field 1
    [("User", ⟨[("fullName", ⟨some [.fragmentDef "F" "User" [] []]⟩)]⟩)]
    [] [] [] none "fullName" [⟨"computed", some [⟨some "User"⟩]⟩] none
    (some (.definition (.fragmentDef "F" "User" [] []))) [] [] []
    rfl hfrag rfl (by rw [aexpandEntryList]) (by rw [aexpandEntryList])
    rfl rfl).1
  rw [flattenPassEntries_id (by rfl)] at h
  simpa using h

theorem stripComputed_idem (ds : List Directive) :
    stripComputed (stripComputed ds) = stripComputed ds := by
  simp only [stripComputed]
  rw [List.filter_filter]
  exact List.filter_congr fun d _ => Bool.and_self _

theorem onesLevel1_forall : ∀ {es : List SelEntry}, onesLevel1 es = true →
    ∀ e ∈ es, ∃ s, e = .one s ∧ selLevel1 s = true := by
  intro es
  induction es with
  | nil => intro _ e he; cases he
  | cons x rest ih =>
    intro h e he
    cases x with
    | one s =>
      rw [onesLevel1] at h
      simp only [Bool.and_eq_true] at h
      rcases List.mem_cons.mp he with heq | hmem
      · exact ⟨s, heq, h.1⟩
      · exact ih h.2 e hmem
    | many es2 => rw [onesLevel1] at h; cases h

theorem level1_flatten : ∀ {l : List SelEntry}, entriesLevel1 l = true →
    ∀ e ∈ flattenEntries l, ∃ s, e = .one s ∧ selLevel1 s = true := by
  intro l
  induction l with
  | nil => intro _ e he; rw [flattenEntries] at he; cases he
  | cons x rest ih =>
    intro h e he
    rw [entriesLevel1] at h
    simp only [Bool.and_eq_true] at h
    cases x with
    | one s =>
      rw [flattenEntries] at he
      rcases List.mem_cons.mp he with heq | hmem
      · refine ⟨s, heq, ?_⟩
        have := h.1
        rw [entryLevel1] at this
        exact this
      · exact ih h.2 e hmem
    | many es =>
      rw [flattenEntries] at he
      rcases List.mem_append.mp he with hmem | hmem
      · have h1 := h.1
        rw [entryLevel1] at h1
        exact onesLevel1_forall h1 e hmem
      · exact ih h.2 e hmem

theorem flattenEntries_ones : ∀ {l : List SelEntry},
    (∀ e ∈ l, ∃ s, e = .one s) → flattenEntries l = l := by
  intro l
  induction l with
  | nil => intro _; rfl
  | cons x rest ih =>
    intro h
    obtain ⟨s, hs⟩ := h x (by simp)
    rw [hs, flattenEntries, ih fun e he => h e (by simp [he])]

theorem toFieldData_one_normalizeSel_none {s : SelNode}
    (h : toFieldData (.one s) = none) :
    toFieldData (.one (normalizeSel s)) = none := by
  cases s with
  | field a n ds ss => simp [toFieldData] at h
  | fragmentSpread n ds => rw [normalizeSel]; rfl
  | inlineFragment tc ds l => rw [normalizeSel]; rfl

theorem toFieldData_one_normalizeField (fd : FieldData) :
    toFieldData (.one (normalizeField fd)) = some (normalizeFieldData fd) := by
  cases fd with
  | mk a n ds ss =>
    cases ss <;> simp [normalizeField, toFieldData, normalizeFieldData]

theorem entriesLevel1_append (a b : List SelEntry) :
    entriesLevel1 (a ++ b) = (entriesLevel1 a && entriesLevel1 b) := by
  induction a with
  | nil => simp [entriesLevel1]
  | cons e rest ih => simp [entriesLevel1, ih, Bool.and_assoc]

theorem fieldDataLevel1_toFieldData {e : SelEntry} {fd : FieldData}
    (he : toFieldData e = some fd) (hl : entryLevel1 e = true) :
    fieldDataLevel1 fd = true := by
  cases e with
  | one s =>
    cases s with
    | field a n ds ss =>
      rw [toFieldData] at he
      cases he
      rw [entryLevel1] at hl
      cases ss with
      | none => rfl
      | some cl =>
        rw [selLevel1] at hl
        simpa [fieldDataLevel1] using hl
    | fragmentSpread n ds => simp [toFieldData] at he
    | inlineFragment tc ds l => simp [toFieldData] at he
  | many es => simp [toFieldData] at he

theorem fieldDataLevel1_mergeTwo {a b : FieldData}
    (ha : fieldDataLevel1 a = true) (hb : fieldDataLevel1 b = true) :
    fieldDataLevel1 (mergeTwoFields a b) = true := by
  rw [fieldDataLevel1] at ha hb
  cases ha2 : a.selectionSet with
  | none =>
    cases hb2 : b.selectionSet with
    | none => simp [mergeTwoFields, fieldDataLevel1, ha2, hb2]
    | some lb =>
      rw [hb2] at hb
      simp only [] at hb
      simp [mergeTwoFields, fieldDataLevel1, ha2, hb2, hb]
  | some la =>
    rw [ha2] at ha
    simp only [] at ha
    cases hb2 : b.selectionSet with
    | none => simp [mergeTwoFields, fieldDataLevel1, ha2, hb2, ha]
    | some lb =>
      rw [hb2] at hb
      simp only [] at hb
      simp [mergeTwoFields, fieldDataLevel1, ha2, hb2, entriesLevel1_append,
        ha, hb]

theorem fieldDataLevel1_mergeGroup {g : List FieldData}
    (h : ∀ f ∈ g, fieldDataLevel1 f = true) :
    fieldDataLevel1 (mergeGroup g) = true := by
  cases g with
  | nil => rfl
  | cons x xs =>
    rw [mergeGroup]
    have aux : ∀ (t : List FieldData) (hd : FieldData),
        fieldDataLevel1 hd = true → (∀ f ∈ t, fieldDataLevel1 f = true) →
        fieldDataLevel1 (t.foldl mergeTwoFields hd) = true := by
      intro t
      induction t with
      | nil => intro hd hhd _; exact hhd
      | cons y ys ih =>
        intro hd hhd ht
        rw [List.foldl_cons]
        exact ih _ (fieldDataLevel1_mergeTwo hhd (ht y (by simp)))
          fun f hf => ht f (by simp [hf])
    exact aux xs x (h x (by simp)) fun f hf => h f (by simp [hf])

theorem fieldKey_normalizeFieldData (fd : FieldData) :
    fieldKey (normalizeFieldData fd) = fieldKey fd := rfl

theorem slookup_append_none {α : Type} {a : List (String × α)} {k : String}
    (h : slookup a k = none) (b : List (String × α)) :
    slookup (a ++ b) k = slookup b k := by
  induction a with
  | nil => rfl
  | cons p rest ih =>
    rw [slookup] at h
    rw [List.cons_append, slookup]
    cases hc : p.1 == k with
    | true => rw [if_pos hc] at h; cases h
    | false =>
      rw [if_neg (by simp [hc])] at h ⊢
      exact ih h

theorem groupFields_nodup_singletons : ∀ {fs : List FieldData},
    (fs.map fieldKey).Nodup →
    groupFields fs = fs.map (fun fd => (fieldKey fd, [fd])) := by
  have aux : ∀ (fs : List FieldData) (acc : List (String × List FieldData)),
      (∀ f ∈ fs, slookup acc (fieldKey f) = none) → (fs.map fieldKey).Nodup →
      fs.foldl insertGroup acc =
        acc ++ fs.map (fun fd => (fieldKey fd, [fd])) := by
    intro fs
    induction fs with
    | nil => intro acc _ _; simp
    | cons f fs ih =>
      intro acc hnone hnd
      rw [List.foldl_cons]
      rw [show insertGroup acc f = acc ++ [(fieldKey f, [f])] by
        rw [insertGroup, hnone f (by simp)]]
      rw [List.map_cons] at hnd
      rcases List.nodup_cons.mp hnd with ⟨hnotin, hnd2⟩
      rw [ih (acc ++ [(fieldKey f, [f])]) ?_ hnd2]
      · simp
      · intro f2 hf2
        rw [slookup_append_none (hnone f2 (by simp [hf2]))]
        rw [slookup]
        have hne : (fieldKey f == fieldKey f2) = false := by
          refine beq_eq_false_iff_ne.mpr fun hEq => ?_
          exact hnotin (hEq ▸ List.mem_map_of_mem fieldKey hf2)
        rw [if_neg (by simp [hne])]
        rfl
  intro fs hnd
  rw [groupFields, aux fs [] (fun f _ => rfl) hnd]
  rfl

theorem mem_dedupFirst : ∀ {l : List String} {x : String},
    x ∈ dedupFirst l → x ∈ l := by
  intro l
  induction l using dedupFirst.induct with
  | case1 => intro x h; rw [dedupFirst] at h; cases h
  | case2 k rest ih =>
    intro x h
    rw [dedupFirst] at h
    rcases List.mem_cons.mp h with heq | h2
    · rw [heq]; simp
    · exact List.mem_cons_of_mem _ (List.mem_of_mem_filter (ih h2))

theorem dedupFirst_nodup : ∀ (l : List String), (dedupFirst l).Nodup := by
  intro l
  induction l using dedupFirst.induct with
  | case1 => rw [dedupFirst]; exact List.nodup_nil
  | case2 k rest ih =>
    rw [dedupFirst]
    refine List.nodup_cons.mpr ⟨fun hk => ?_, ih⟩
    have := List.of_mem_filter (mem_dedupFirst hk)
    simp at this

theorem groupFields_keys_nodup (fs : List FieldData) :
    ((groupFields fs).map Prod.fst).Nodup := by
  rw [groupFields_keys]
  exact dedupFirst_nodup _

theorem filterMap_eq_map_of_some {α β : Type} (f : α → Option β) (g : α → β) :
    ∀ (l : List α), (∀ a ∈ l, f a = some (g a)) → l.filterMap f = l.map g := by
  intro l
  induction l with
  | nil => intro _; rfl
  | cons x rest ih =>
    intro h
    have hrest := ih fun a ha => h a (by simp [ha])
    simp [List.filterMap_cons, h x (by simp), hrest]

theorem isFieldEntry_eq_false {e : SelEntry} (h : isFieldEntry e = false) :
    toFieldData e = none := by
  rw [isFieldEntry] at h
  cases hx : toFieldData e with
  | none => rfl
  | some fd => rw [hx] at h; cases h

theorem norm_idem_entries_step (D : Nat)
    (IHsel : ∀ s, selLevel1 s = true → depthSel s ≤ D →
      normalizeSel (normalizeSel s) = normalizeSel s)
    (IHent : ∀ m, m < D → ∀ cl, entriesLevel1 cl = true → depthEntries cl ≤ m →
      normalizeEntries (normalizeEntries cl) = normalizeEntries cl)
    (l : List SelEntry) (hl1 : entriesLevel1 l = true)
    (hd : depthEntries l ≤ D) :
    normalizeEntries (normalizeEntries l) = normalizeEntries l := by
  have hFactA := level1_flatten hl1
  rw [normalizeEntries_eq l]
  set fs := (flattenEntries l).filterMap toFieldData with hfs
  set gf := groupFields fs with hgf
  set flA := (flattenEntries l).filter (fun e => !(isFieldEntry e)) with hflA
  set A := flA.map normalizeEntry with hA
  set B := gf.map (fun kg => SelEntry.one (normalizeField (mergeGroup kg.2)))
    with hB
  have hAmem : ∀ e ∈ A, ∃ s0, e = .one (normalizeSel s0) ∧
      selLevel1 s0 = true ∧ toFieldData (.one s0) = none ∧ depthSel s0 ≤ D := by
    intro e he
    rw [hA] at he
    rcases List.mem_map.mp he with ⟨e0, he0, heq⟩
    rw [hflA] at he0
    obtain ⟨s0, hs0, hlev⟩ := hFactA e0 (List.mem_of_mem_filter he0)
    have hfield : toFieldData (.one s0) = none := by
      have hp := List.of_mem_filter he0
      rw [hs0] at hp
      refine isFieldEntry_eq_false ?_
      cases hx : isFieldEntry (SelEntry.one s0) with
      | false => rfl
      | true => rw [hx] at hp; cases hp
    have hdep : depthSel s0 ≤ D := by
      have := depthEntry_le_of_mem_flatten (List.mem_of_mem_filter he0)
      rw [hs0, depthEntry] at this
      exact le_trans this hd
    exact ⟨s0, by rw [← heq, hs0, normalizeEntry_one], hlev, hfield, hdep⟩
  have hAid : ∀ e ∈ A, normalizeEntry e = e := by
    intro e he
    obtain ⟨s0, heq, hlev, _, hdep⟩ := hAmem e he
    rw [heq, normalizeEntry_one, IHsel s0 hlev hdep]
  have hAnf : ∀ e ∈ A, isFieldEntry e = false := by
    intro e he
    obtain ⟨s0, heq, _, hnone, _⟩ := hAmem e he
    rw [heq, isFieldEntry, toFieldData_one_normalizeSel_none hnone]
    rfl
  have hBf : ∀ e ∈ B, isFieldEntry e = true := by
    intro e he
    rw [hB] at he
    rcases List.mem_map.mp he with ⟨kg, hkg, heq⟩
    rw [← heq]
    exact isFieldEntry_one_normalizeField _
  rw [normalizeEntries_eq]
  have hflat : flattenEntries (A ++ B) = A ++ B := by
    refine flattenEntries_ones fun e he => ?_
    rcases List.mem_append.mp he with hmem | hmem
    · obtain ⟨s0, heq, _, _, _⟩ := hAmem e hmem
      exact ⟨normalizeSel s0, heq⟩
    · rw [hB] at hmem
      rcases List.mem_map.mp hmem with ⟨kg, hkg, heq⟩
      exact ⟨normalizeField (mergeGroup kg.2), heq.symm⟩
  rw [hflat]
  have h1 : (A ++ B).filter (fun e => !(isFieldEntry e)) = A := by
    rw [List.filter_append]
    rw [List.filter_eq_self.mpr fun a ha => by rw [hAnf a ha]; rfl]
    rw [show B.filter (fun e => !(isFieldEntry e)) = [] from
      List.filter_eq_nil_iff.mpr fun a ha => by rw [hBf a ha]; simp]
    exact List.append_nil A
  rw [h1]
  have h2 : (A ++ B).filterMap toFieldData =
      gf.map (fun kg => normalizeFieldData (mergeGroup kg.2)) := by
    rw [List.filterMap_append]
    rw [show A.filterMap toFieldData = [] from
      List.filterMap_eq_nil_iff.mpr fun a ha => isFieldEntry_eq_false (hAnf a ha)]
    rw [List.nil_append]
    rw [hB, List.filterMap_map]
    exact filterMap_eq_map_of_some _ _ gf fun kg _ =>
      toFieldData_one_normalizeField (mergeGroup kg.2)
  rw [h2]
  have h3keys : ((gf.map (fun kg => normalizeFieldData (mergeGroup kg.2))).map
      fieldKey).Nodup := by
    rw [List.map_map]
    have hcongr : ∀ kg ∈ gf,
        (fieldKey ∘ fun kg => normalizeFieldData (mergeGroup kg.2)) kg =
          Prod.fst kg := by
      intro kg hkg
      show fieldKey (normalizeFieldData (mergeGroup kg.2)) = kg.1
      rw [fieldKey_normalizeFieldData]
      exact fieldKey_mergeGroup (groupFields_nonempty hkg)
        (groupFields_key_invariant hkg)
    rw [List.map_congr_left hcongr]
    exact groupFields_keys_nodup fs
  rw [groupFields_nodup_singletons h3keys]
  rw [List.map_map, List.map_map]
  have hNF : ∀ kg ∈ gf,
      normalizeField (normalizeFieldData (mergeGroup kg.2)) =
        normalizeField (mergeGroup kg.2) := by
    intro kg hkg
    have hlev : fieldDataLevel1 (mergeGroup kg.2) = true := by
      refine fieldDataLevel1_mergeGroup fun f hf => ?_
      have hfs2 : f ∈ fs := mem_groupFields hkg hf
      rw [hfs] at hfs2
      rcases List.mem_filterMap.mp hfs2 with ⟨e, he, hfe⟩
      obtain ⟨s0, hs0, hlev0⟩ := hFactA e he
      refine fieldDataLevel1_toFieldData hfe ?_
      rw [hs0, entryLevel1]
      exact hlev0
    have hdep : depthField (mergeGroup kg.2) ≤ depthEntries l :=
      depthField_mergeGroup_flatten_le hkg
    cases hM : mergeGroup kg.2 with
    | mk al nm dss sss =>
      rw [hM] at hlev hdep
      cases sss with
      | none => simp [normalizeFieldData, normalizeField, stripComputed_idem]
      | some cl =>
        simp only [fieldDataLevel1] at hlev
        simp only [depthField] at hdep
        have hcl : depthEntries cl < D := by omega
        have hidem := IHent (depthEntries cl) hcl cl hlev le_rfl
        simp [normalizeFieldData, normalizeField, stripComputed_idem, hidem]
  rw [List.map_map]
  have hBfold : gf.map (((fun kg =>
        SelEntry.one (normalizeField (mergeGroup kg.2))) ∘
      (fun fd => (fieldKey fd, [fd]))) ∘
        (fun kg => normalizeFieldData (mergeGroup kg.2))) = B := by
    rw [hB]
    refine List.map_congr_left fun kg hkg => ?_
    show SelEntry.one (normalizeField
        (mergeGroup [normalizeFieldData (mergeGroup kg.2)])) =
      SelEntry.one (normalizeField (mergeGroup kg.2))
    rw [show mergeGroup [normalizeFieldData (mergeGroup kg.2)] =
      normalizeFieldData (mergeGroup kg.2) from rfl]
    rw [hNF kg hkg]
  have hAfold : List.map (normalizeEntry ∘ normalizeEntry) flA = A := by
    rw [hA]
    refine List.map_congr_left fun e0 he0 => ?_
    show normalizeEntry (normalizeEntry e0) = normalizeEntry e0
    exact hAid (normalizeEntry e0) (by rw [hA]; exact List.mem_map_of_mem _ he0)
  rw [hBfold, hAfold]

theorem norm_idem_core : ∀ (D : Nat),
    (∀ s, selLevel1 s = true → depthSel s ≤ D →
      normalizeSel (normalizeSel s) = normalizeSel s) ∧
    (∀ l, entriesLevel1 l = true → depthEntries l ≤ D →
      normalizeEntries (normalizeEntries l) = normalizeEntries l) := by
  intro D
  induction D using Nat.strong_induction_on with
  | _ D IH =>
    have hSel : ∀ s, selLevel1 s = true → depthSel s ≤ D →
        normalizeSel (normalizeSel s) = normalizeSel s := by
      intro s hl1 hdp
      cases s with
      | field a n ds ss =>
        cases ss with
        | none => rw [normalizeSel, normalizeSel, stripComputed_idem]
        | some cl =>
          rw [depthSel] at hdp
          rw [selLevel1] at hl1
          have hcl : depthEntries cl < D := by omega
          rw [normalizeSel, normalizeSel, stripComputed_idem,
            (IH (depthEntries cl) hcl).2 cl hl1 le_rfl]
      | fragmentSpread n ds =>
        rw [normalizeSel, normalizeSel, stripComputed_idem]
      | inlineFragment tc ds cl =>
        rw [depthSel] at hdp
        rw [selLevel1] at hl1
        have hcl : depthEntries cl < D := by omega
        rw [normalizeSel, normalizeSel, stripComputed_idem,
          (IH (depthEntries cl) hcl).2 cl hl1 le_rfl]
    refine ⟨hSel, fun l hl1 hdp => ?_⟩
    exact norm_idem_entries_step D hSel
      (fun m hm cl hcl hdcl => (IH m hm).2 cl hcl hdcl) l hl1 hdp

theorem normalizeDefinition_idem (d : Definition)
    (h : definitionLevel1 d = true) :
    normalizeDefinition (normalizeDefinition d) = normalizeDefinition d := by
  cases d with
  | operation ds sels =>
    rw [definitionLevel1] at h
    rw [normalizeDefinition, normalizeDefinition, stripComputed_idem,
      (norm_idem_core (depthEntries sels)).2 sels h le_rfl]
  | fragmentDef n tc ds sels =>
    rw [definitionLevel1] at h
    rw [normalizeDefinition, normalizeDefinition, stripComputed_idem,
      (norm_idem_core (depthEntries sels)).2 sels h le_rfl]

/-- C7: the second replace-mode pass (flatten, field merge, directive
strip) is idempotent: for every tree whose selection-list arrays are at
most one level deep — the shape every first-pass output has, so every tree
the pass actually runs on, and in particular every tree that is already
its output — running the pass on its own output returns an unchanged
tree. -/
theorem normalize_pass_idempotent (q : QueryNode) (h : nodeLevel1 q = true) :
    normalizeNode (normalizeNode q) = normalizeNode q := by
  cases q with
  | definition d =>
    rw [nodeLevel1] at h
    rw [normalizeNode, normalizeNode, normalizeDefinition_idem d h]
  | document defs =>
    rw [nodeLevel1] at h
    rw [normalizeNode, normalizeNode, List.map_map]
    refine congrArg QueryNode.document (List.map_congr_left fun d hd => ?_)
    show normalizeDefinition (normalizeDefinition d) = normalizeDefinition d
    refine normalizeDefinition_idem d ?_
    rw [List.all_eq_true] at h
    exact h d hd

/-- Witness for C7 at a concrete one-field operation. -/
theorem normalize_pass_idempotent_witness :
    nodeLevel1 (.definition (.operation []
        [.one (.field none "a" [] none)])) = true ∧
      normalizeNode (normalizeNode (.definition (.operation []
          [.one (.field none "a" [] none)]))) =
        normalizeNode (.definition (.operation []
          [.one (.field none "a" [] none)])) :=
  ⟨rfl, normalize_pass_idempotent _ rfl⟩

end UrqlComputed
